import Mathlib

/-!
Verification development for the minesweeper board engine (src/main.cpp).

The board engine (classes `Cell` and `Board`) is shallowly embedded below.
The grid `std::vector<std::vector<Cell>>` becomes a function
`Int → Int → Cell` indexed `cells[y][x]` exactly as the source; all
operations bounds-check before touching the grid, as the source does, so
values outside the grid are never read or written by in-contract runs.
The random draws of `std::uniform_int_distribution<>(0, width*height-1)`
inside `Board::placeMines` are made explicit as a list of sampled linear
indices.  The recursive flood fill of `Board::revealCell` is embedded as
an explicit stack (worklist) processed in exactly the source's depth-first
neighbour order, driven by a fuel parameter that is provably irrelevant
once it exceeds the standard termination measure.
-/

namespace MS

/-- `enum class CellState { Hidden, Revealed, Flagged }`. -/
inductive CellState where
  | Hidden
  | Revealed
  | Flagged
deriving DecidableEq, Repr

/-- Per-cell state of class `Cell`: concealment state, mine flag,
precomputed adjacent-mine count. -/
structure Cell where
  state : CellState
  isMine : Bool
  adjacentMines : Nat
deriving DecidableEq, Repr

/-- `Cell() : state(Hidden), isMine(false), adjacentMines(0)`. -/
def Cell.init : Cell := ⟨CellState.Hidden, false, 0⟩

/-- `Cell::reveal`: Hidden → Revealed, otherwise no-op. -/
def Cell.reveal (c : Cell) : Cell :=
  if c.state = CellState.Hidden then { c with state := CellState.Revealed } else c

/-- `Cell::toggleFlag`: Hidden → Flagged, Flagged → Hidden, no-op on Revealed. -/
def Cell.toggleFlag (c : Cell) : Cell :=
  if c.state = CellState.Hidden then { c with state := CellState.Flagged }
  else if c.state = CellState.Flagged then { c with state := CellState.Hidden }
  else c

/-- `Cell::setMine`: sets the mine flag; a mine's adjacent count is reset to 0. -/
def Cell.setMine (c : Cell) (mine : Bool) : Cell :=
  { c with isMine := mine, adjacentMines := if mine then 0 else c.adjacentMines }

/-- `Cell::incrementAdjacentMines`: increments only on non-mine cells. -/
def Cell.incrementAdjacentMines (c : Cell) : Cell :=
  if c.isMine then c else { c with adjacentMines := c.adjacentMines + 1 }

/-- `Cell::isRevealed`. -/
def Cell.isRevealed (c : Cell) : Bool := decide (c.state = CellState.Revealed)

/-- `Cell::isFlagged`. -/
def Cell.isFlagged (c : Cell) : Bool := decide (c.state = CellState.Flagged)

/-- Class `Board`: grid of cells indexed `cells[y][x]`, dimensions, mine
count and the first-click flag. -/
structure Board where
  cells : Int → Int → Cell
  width : Nat
  height : Nat
  mineCount : Int
  firstClick : Bool

/-- `Board::Board(w, h, m)`: all cells default-constructed, `firstClick = true`.
The constructor performs no parameter validation. -/
def mkBoard (w h : Nat) (m : Int) : Board :=
  { cells := fun _ _ => Cell.init, width := w, height := h, mineCount := m, firstClick := true }

/-- `cells[y][x]` read access. -/
def Board.cellAt (b : Board) (x y : Int) : Cell := b.cells y x

/-- `cells[y][x]` write access (all other cells unchanged). -/
def Board.setCell (b : Board) (x y : Int) (c : Cell) : Board :=
  { b with cells := fun j i => if j = y ∧ i = x then c else b.cells j i }

/-- The source's bounds check `x < 0 || x >= width || y < 0 || y >= height`. -/
def outOfRange (b : Board) (x y : Int) : Bool :=
  decide (x < 0) || decide ((b.width : Int) ≤ x) || decide (y < 0) || decide ((b.height : Int) ≤ y)

/-- In-range coordinates, the positive form of the source's bounds check. -/
abbrev inBds (b : Board) (x y : Int) : Prop :=
  0 ≤ x ∧ x < (b.width : Int) ∧ 0 ≤ y ∧ y < (b.height : Int)

/-- Row-major enumeration of the grid coordinates as `(y, x)` pairs. -/
def gridCoords (b : Board) : List (Int × Int) :=
  (List.range b.height).flatMap fun (j : Nat) =>
    (List.range b.width).map fun (i : Nat) => ((j : Int), (i : Int))

/-- Number of cells with `isMine = true`. -/
def countMines (b : Board) : Nat :=
  (gridCoords b).countP fun p => (b.cells p.1 p.2).isMine

/-- Number of cells whose state is not Revealed (termination measure of the flood fill). -/
def unrevealedCount (b : Board) : Nat :=
  (gridCoords b).countP fun p => !(b.cells p.1 p.2).isRevealed

/-- No cell of the grid carries a mine. -/
def mineFree (b : Board) : Bool :=
  (gridCoords b).all fun p => !(b.cells p.1 p.2).isMine

/-- No cell of the grid is Revealed. -/
def noneRevealed (b : Board) : Bool :=
  (gridCoords b).all fun p => !(b.cells p.1 p.2).isRevealed

/-- The eight neighbour offsets `(dx, dy)` in the order the source's
`for (dy = -1..1) for (dx = -1..1)` loops visit them, `(0,0)` skipped. -/
def offsets : List (Int × Int) :=
  [(-1, -1), (0, -1), (1, -1), (-1, 0), (1, 0), (-1, 1), (0, 1), (1, 1)]

/-- One iteration of the neighbour loop in `Board::incrementAdjacentMines`:
bump the cell at `(x+dx, y+dy)` when it is in bounds. -/
def bumpStep (x y : Int) (bb : Board) (o : Int × Int) : Board :=
  if outOfRange bb (x + o.1) (y + o.2) then bb
  else bb.setCell (x + o.1) (y + o.2)
    (Cell.incrementAdjacentMines (bb.cellAt (x + o.1) (y + o.2)))

/-- `Board::incrementAdjacentMines(x, y)`: bump all in-bounds 8-neighbours
of `(x, y)`; `Cell::incrementAdjacentMines` itself skips mine cells. -/
def Board.incrementAdjacentMines (b : Board) (x y : Int) : Board :=
  offsets.foldl (bumpStep x y) b

/-- The body of a successful placement iteration:
`cells[y][x].setMine(true); incrementAdjacentMines(x, y);`. -/
def placeMineAt (b : Board) (x y : Int) : Board :=
  (b.setCell x y (Cell.setMine (b.cellAt x y) true)).incrementAdjacentMines x y

/-- The loop body of `Board::placeMines`, with the stream of sampled linear
indices made explicit.  `placed` is the running `minesPlaced` counter; the
loop exits as soon as `minesPlaced < mineCount` fails.  Returns the board
together with the final counter (the run is complete when the counter
reached `mineCount`; the source would keep drawing further indices). -/
def placeMinesGo (exX exY : Int) : Board → Int → List Nat → Board × Int
  | b, placed, [] => (b, placed)
  | b, placed, d :: rest =>
    if placed < b.mineCount then
      if (((d % b.width : Nat) : Int) ≠ exX ∨ ((d / b.width : Nat) : Int) ≠ exY) ∧
          (b.cellAt ((d % b.width : Nat) : Int) ((d / b.width : Nat) : Int)).isMine = false then
        placeMinesGo exX exY
          (placeMineAt b ((d % b.width : Nat) : Int) ((d / b.width : Nat) : Int))
          (placed + 1) rest
      else
        placeMinesGo exX exY b placed rest
    else (b, placed)

/-- `Board::placeMines(excludedX, excludedY)` run on an explicit draw list. -/
def Board.placeMines (b : Board) (exX exY : Int) (draws : List Nat) : Board :=
  (placeMinesGo exX exY b 0 draws).1

/-- The eight neighbour coordinates of `(x, y)` in source visiting order. -/
def neighborsOf (x y : Int) : List (Int × Int) :=
  offsets.map fun o => (x + o.1, y + o.2)

/-- `Board::revealCell` as an explicit work stack: popping `(x, y)` performs
exactly the body of the source's recursive call, pushing the eight
neighbours in front of the remaining stack reproduces the depth-first
recursion order.  The fuel only bounds the number of steps; `revealGo_fuel`
below shows any fuel at least the termination measure gives the same
result, which is the source recursion's termination argument. -/
def revealGo : Nat → Board → List (Int × Int) → Board
  | 0, b, _ => b
  | _ + 1, b, [] => b
  | fuel + 1, b, (x, y) :: rest =>
    if outOfRange b x y then revealGo fuel b rest
    else
      let c := b.cellAt x y
      if c.isRevealed || c.isFlagged then revealGo fuel b rest
      else
        let b2 := b.setCell x y c.reveal
        let c2 := b2.cellAt x y
        if c2.adjacentMines = 0 ∧ c2.isMine = false then
          revealGo fuel b2 (neighborsOf x y ++ rest)
        else revealGo fuel b2 rest

/-- `Board::revealCell(x, y)` with a provably sufficient fuel. -/
def Board.revealCell (b : Board) (x y : Int) : Board :=
  revealGo (9 * unrevealedCount b + 2) b [(x, y)]

/-- `Board::flagCell(x, y)`: bounds check then `Cell::toggleFlag`. -/
def Board.flagCell (b : Board) (x y : Int) : Board :=
  if outOfRange b x y then b
  else b.setCell x y (Cell.toggleFlag (b.cellAt x y))

/-- `Board::firstReveal(x, y)`: when the first click is still pending, place
mines (excluding `(x, y)`) and clear the flag; in every case fall through
to `revealCell(x, y)`. -/
def Board.firstReveal (b : Board) (x y : Int) (draws : List Nat) : Board :=
  if b.firstClick then
    Board.revealCell { b.placeMines x y draws with firstClick := false } x y
  else
    b.revealCell x y

/-- `Board::checkWinCondition`: false iff some non-mine cell is unrevealed. -/
def Board.checkWinCondition (b : Board) : Bool :=
  (gridCoords b).all fun p => !(!(b.cells p.1 p.2).isMine && !(b.cells p.1 p.2).isRevealed)

/-- `Board::checkLossCondition`: true iff some mine cell is revealed. -/
def Board.checkLossCondition (b : Board) : Bool :=
  (gridCoords b).any fun p => (b.cells p.1 p.2).isMine && (b.cells p.1 p.2).isRevealed

/-- Number of in-bounds 8-neighbours of `(x, y)` carrying a mine. -/
def neighborMineCount (b : Board) (x y : Int) : Nat :=
  offsets.countP fun o =>
    !(outOfRange b (x + o.1) (y + o.2)) && (b.cellAt (x + o.1) (y + o.2)).isMine

/-- Serialization code of a cell state (enum values 0, 1, 2). -/
def stateCode : CellState → Int
  | CellState.Hidden => 0
  | CellState.Revealed => 1
  | CellState.Flagged => 2

/-- Integer encoding of a serialized bool. -/
def boolInt (v : Bool) : Int := if v then 1 else 0

/-- `Cell::serialize`: state, mine flag, adjacency count, in stream order. -/
def Cell.serialize (c : Cell) : List Int :=
  [stateCode c.state, boolInt c.isMine, (c.adjacentMines : Int)]

/-- `Board::serialize`: header `width, height, mineCount, firstClick`
followed by every cell in row-major order. -/
def Board.serialize (b : Board) : List Int :=
  [(b.width : Int), (b.height : Int), b.mineCount, boolInt b.firstClick]
    ++ ((List.range b.height).flatMap fun (j : Nat) =>
        (List.range b.width).flatMap fun (i : Nat) => Cell.serialize (b.cells (j : Int) (i : Int)))

/-- Decoding of a serialized cell state. -/
def decodeState : Int → CellState
  | 1 => CellState.Revealed
  | 2 => CellState.Flagged
  | _ => CellState.Hidden

/-- `Cell::deserialize`: read three stream values, return the rest of the stream. -/
def Cell.deserialize (l : List Int) : Cell × List Int :=
  (⟨decodeState (l.getD 0 0), decide (l.getD 1 0 ≠ 0), (l.getD 2 0).toNat⟩, l.drop 3)

/-- Sequentially deserialize one row of `n` cells. -/
def parseRow : Nat → List Int → List Cell × List Int
  | 0, l => ([], l)
  | n + 1, l =>
    let cr := Cell.deserialize l
    let rr := parseRow n cr.2
    (cr.1 :: rr.1, rr.2)

/-- Sequentially deserialize `n` rows of `w` cells each. -/
def parseRows : Nat → Nat → List Int → List (List Cell) × List Int
  | 0, _, l => ([], l)
  | n + 1, w, l =>
    let rr := parseRow w l
    let rs := parseRows n w rr.2
    (rr.1 :: rs.1, rs.2)

/-- `Board::deserialize`: read the header, then the cells in the exact
order `Board::serialize` wrote them. -/
def Board.deserialize (l : List Int) : Board :=
  let w := (l.getD 0 0).toNat
  let h := (l.getD 1 0).toNat
  let rows := (parseRows h w (l.drop 4)).1
  { cells := fun j i => ((rows.getD j.toNat []).getD i.toNat Cell.init)
    width := w
    height := h
    mineCount := l.getD 2 0
    firstClick := decide (l.getD 3 0 ≠ 0) }

/-- The command surface the UI layer forwards into the board. -/
inductive Cmd where
  | firstReveal (x y : Int) (draws : List Nat)
  | revealCell (x y : Int)
  | flagCell (x y : Int)

/-- Apply one command to the board. -/
def applyCmd (b : Board) : Cmd → Board
  | Cmd.firstReveal x y ds => b.firstReveal x y ds
  | Cmd.revealCell x y => b.revealCell x y
  | Cmd.flagCell x y => b.flagCell x y

/-- Run a command sequence left to right. -/
def runCmds (b : Board) (cs : List Cmd) : Board := cs.foldl applyCmd b

/-- True when the command is not a `firstReveal`. -/
def notFirstRevealCmd : Cmd → Bool
  | Cmd.firstReveal _ _ _ => false
  | _ => true

/-- True when the sequence contains no `firstReveal` command. -/
def noFirstRevealIn (cs : List Cmd) : Bool := cs.all notFirstRevealCmd

/-- Modelled from the spec: the constructor-parameter validity condition
`0 < mineCount < width*height` with positive dimensions, which section 7
of the spec says must be validated before board construction.  The source
constructor contains no such check. -/
def validParams (w h : Nat) (m : Int) : Bool :=
  decide (0 < m ∧ m < (w : Int) * (h : Int) ∧ 0 < w ∧ 0 < h)

/-- Modelled from the spec: a fail-fast checked constructor, returning no
board on invalid parameters, as section 7 of the spec demands. -/
def mkBoardChecked (w h : Nat) (m : Int) : Option Board :=
  if validParams w h m then some (mkBoard w h m) else none

/-- Modelled from the spec: "true iff every non-mine cell is Revealed",
stated directly in those words for comparison with the code's
`checkWinCondition` scan. -/
def allNonMineRevealed (b : Board) : Bool :=
  (gridCoords b).all fun p =>
    if (b.cells p.1 p.2).isMine then true else (b.cells p.1 p.2).isRevealed

/-! Generic counting helpers. -/

/-- Two pointwise-equal predicates count alike. -/
theorem countP_agree {α : Type} (p q : α → Bool) (l : List α)
    (h : ∀ a ∈ l, p a = q a) : l.countP p = l.countP q :=
  List.countP_congr fun a ha => by rw [h a ha]

/-- Flipping a predicate from true to false at one element of a
duplicate-free list lowers the count by exactly one. -/
theorem countP_flip {α : Type} (p q : α → Bool) (c : α) :
    ∀ l : List α, l.Nodup → c ∈ l → p c = true → q c = false →
      (∀ a ∈ l, a ≠ c → p a = q a) → l.countP p = l.countP q + 1 := by
  intro l
  induction l with
  | nil => intro _ hc; cases hc
  | cons a t ih =>
    intro hnd hc hp hq hagree
    rcases List.mem_cons.mp hc with rfl | hct
    · have hat : ∀ x ∈ t, p x = q x := by
        intro x hx
        exact hagree x (List.mem_cons_of_mem _ hx)
          (fun hxa => (List.nodup_cons.mp hnd).1 (hxa ▸ hx))
      rw [List.countP_cons, List.countP_cons, hp, hq,
        countP_agree p q t hat]
      simp
    · have hac : a ≠ c := fun h => (List.nodup_cons.mp hnd).1 (h ▸ hct)
      rw [List.countP_cons, List.countP_cons,
        ih (List.nodup_cons.mp hnd).2 hct hp hq
          (fun x hx hxc => hagree x (List.mem_cons_of_mem _ hx) hxc),
        hagree a (List.mem_cons_self _ _) hac]
      omega

/-- Two pointwise-equal predicates agree on `all`. -/
theorem all_agree {α : Type} (p q : α → Bool) (l : List α)
    (h : ∀ a ∈ l, p a = q a) : l.all p = l.all q := by
  induction l with
  | nil => rfl
  | cons a t ih =>
    simp only [List.all_cons, h a (List.mem_cons_self _ _),
      ih fun x hx => h x (List.mem_cons_of_mem _ hx)]

/-- Two pointwise-equal predicates agree on `any`. -/
theorem any_agree {α : Type} (p q : α → Bool) (l : List α)
    (h : ∀ a ∈ l, p a = q a) : l.any p = l.any q := by
  induction l with
  | nil => rfl
  | cons a t ih =>
    simp only [List.any_cons, h a (List.mem_cons_self _ _),
      ih fun x hx => h x (List.mem_cons_of_mem _ hx)]

/-! Grid coordinate facts. -/

/-- Membership in the row-major coordinate enumeration is exactly being in
bounds (`(y, x)` pair order). -/
theorem mem_gridCoords {b : Board} {q : Int × Int} :
    q ∈ gridCoords b ↔ 0 ≤ q.1 ∧ q.1 < (b.height : Int) ∧ 0 ≤ q.2 ∧ q.2 < (b.width : Int) := by
  obtain ⟨j, i⟩ := q
  simp only [gridCoords, List.mem_flatMap, List.mem_map, List.mem_range, Prod.mk.injEq]
  constructor
  · rintro ⟨a, ha, c, hc, rfl, rfl⟩
    omega
  · rintro ⟨h1, h2, h3, h4⟩
    refine ⟨j.toNat, ?_, i.toNat, ?_, ?_, ?_⟩ <;> omega

/-- The coordinate enumeration has no duplicates. -/
theorem nodup_gridCoords (b : Board) : (gridCoords b).Nodup := by
  unfold gridCoords
  apply List.nodup_flatMap.mpr
  refine ⟨?_, ?_⟩
  · intro j _
    apply List.Nodup.map ?_ (List.nodup_range _)
    intro i1 i2 h
    have h2 := congrArg Prod.snd h
    simp only at h2
    exact_mod_cast h2
  · apply List.Pairwise.imp ?_ (List.pairwise_lt_range b.height)
    intro j1 j2 hlt q hq1 hq2
    rcases List.mem_map.mp hq1 with ⟨i1, _, rfl⟩
    rcases List.mem_map.mp hq2 with ⟨i2, _, h⟩
    have h1 := congrArg Prod.fst h
    simp only at h1
    have h3 : j2 = j1 := by exact_mod_cast h1
    omega

/-- The `(y, x)` pair of an in-bounds coordinate is in the enumeration. -/
theorem mem_gridCoords_of_inBds {b : Board} {x y : Int} (h : inBds b x y) :
    ((y, x) : Int × Int) ∈ gridCoords b :=
  mem_gridCoords.mpr ⟨h.2.2.1, h.2.2.2, h.1, h.2.1⟩

/-! Basic operation lemmas. -/

/-- The two bounds-check formulations agree. -/
theorem outOfRange_eq_false_iff {b : Board} {x y : Int} :
    outOfRange b x y = false ↔ inBds b x y := by
  simp only [outOfRange, Bool.or_eq_false_iff, decide_eq_false_iff_not, inBds]
  omega

/-- Cells of `setCell`: the targeted cell is replaced, others unchanged. -/
theorem setCell_cells (b : Board) (x y : Int) (c : Cell) (j i : Int) :
    (b.setCell x y c).cells j i = if j = y ∧ i = x then c else b.cells j i := rfl

/-- `setCell` keeps the scalar fields. -/
theorem setCell_fields (b : Board) (x y : Int) (c : Cell) :
    (b.setCell x y c).width = b.width ∧ (b.setCell x y c).height = b.height ∧
      (b.setCell x y c).mineCount = b.mineCount ∧ (b.setCell x y c).firstClick = b.firstClick :=
  ⟨rfl, rfl, rfl, rfl⟩

/-- Boards with equal scalar fields. -/
def shapeEq (b b2 : Board) : Prop :=
  b2.width = b.width ∧ b2.height = b.height ∧ b2.mineCount = b.mineCount ∧
    b2.firstClick = b.firstClick

theorem shapeEq_refl (b : Board) : shapeEq b b := ⟨rfl, rfl, rfl, rfl⟩

theorem shapeEq_trans {b b2 b3 : Board} (h1 : shapeEq b b2) (h2 : shapeEq b2 b3) :
    shapeEq b b3 :=
  ⟨h2.1.trans h1.1, h2.2.1.trans h1.2.1, h2.2.2.1.trans h1.2.2.1, h2.2.2.2.trans h1.2.2.2⟩

/-- The bounds check only looks at the dimensions. -/
theorem outOfRange_congr {b b2 : Board} (h : shapeEq b b2) (x y : Int) :
    outOfRange b2 x y = outOfRange b x y := by
  simp only [outOfRange, h.1, h.2.1]

/-- The coordinate enumeration only looks at the dimensions. -/
theorem gridCoords_congr {b b2 : Board} (h : shapeEq b b2) :
    gridCoords b2 = gridCoords b := by
  simp only [gridCoords, h.1, h.2.1]

/-! Offset facts. -/

theorem offsets_nodup : offsets.Nodup := by decide

theorem zero_not_mem_offsets : ((0, 0) : Int × Int) ∉ offsets := by decide

set_option maxHeartbeats 1000000 in
/-- The offset list is closed under negation (neighbourhood symmetry). -/
theorem neg_mem_offsets {a c : Int} : (a, c) ∈ offsets ↔ (-a, -c) ∈ offsets := by
  simp only [offsets, List.mem_cons, List.not_mem_nil, or_false, Prod.mk.injEq]
  omega

/-! Cell-level trivia. -/

theorem reveal_isMine (c : Cell) : c.reveal.isMine = c.isMine := by
  unfold Cell.reveal; split <;> rfl

theorem reveal_adjacentMines (c : Cell) : c.reveal.adjacentMines = c.adjacentMines := by
  unfold Cell.reveal; split <;> rfl

theorem reveal_state (c : Cell) (h : c.state = CellState.Hidden) :
    c.reveal.state = CellState.Revealed := by
  unfold Cell.reveal; rw [if_pos h]

theorem toggleFlag_isMine (c : Cell) : (Cell.toggleFlag c).isMine = c.isMine := by
  unfold Cell.toggleFlag; split <;> try rfl
  split <;> rfl

theorem toggleFlag_adjacentMines (c : Cell) :
    (Cell.toggleFlag c).adjacentMines = c.adjacentMines := by
  unfold Cell.toggleFlag; split <;> try rfl
  split <;> rfl

theorem toggleFlag_isRevealed (c : Cell) :
    (Cell.toggleFlag c).isRevealed = c.isRevealed := by
  unfold Cell.toggleFlag Cell.isRevealed
  cases h : c.state <;> simp [h]

theorem incrementAdjacentMines_cell_isMine (c : Cell) :
    (Cell.incrementAdjacentMines c).isMine = c.isMine := by
  unfold Cell.incrementAdjacentMines; split <;> rfl

theorem incrementAdjacentMines_cell_state (c : Cell) :
    (Cell.incrementAdjacentMines c).state = c.state := by
  unfold Cell.incrementAdjacentMines; split <;> rfl

theorem setMine_state (c : Cell) (m : Bool) : (Cell.setMine c m).state = c.state := rfl

theorem setMine_isMine (c : Cell) (m : Bool) : (Cell.setMine c m).isMine = m := rfl

/-! Effect of the neighbour-bump loop. -/

theorem bumpStep_shape (x y : Int) (bb : Board) (o : Int × Int) :
    shapeEq bb (bumpStep x y bb o) := by
  unfold bumpStep
  split
  · exact shapeEq_refl bb
  · exact ⟨rfl, rfl, rfl, rfl⟩

/-- A single neighbour-loop iteration, described cell by cell. -/
theorem bumpStep_cells (x y : Int) (bb : Board) (o : Int × Int) (j i : Int) :
    (bumpStep x y bb o).cells j i =
      if (i - x, j - y) = o ∧ inBds bb i j
      then Cell.incrementAdjacentMines (bb.cells j i) else bb.cells j i := by
  rcases o with ⟨dx, dy⟩
  unfold bumpStep
  by_cases hB : outOfRange bb (x + dx) (y + dy) = true
  · rw [if_pos hB, if_neg]
    rintro ⟨h1, hin⟩
    rw [Prod.mk.injEq] at h1
    have h2 : inBds bb (x + dx) (y + dy) := by
      have hx : x + dx = i := by omega
      have hy : y + dy = j := by omega
      rw [hx, hy]; exact hin
    rw [outOfRange_eq_false_iff.mpr h2] at hB
    cases hB
  · rw [if_neg hB, setCell_cells]
    have hin : inBds bb (x + dx) (y + dy) :=
      outOfRange_eq_false_iff.mp (Bool.not_eq_true _ ▸ hB)
    by_cases hji : j = y + dy ∧ i = x + dx
    · rw [if_pos hji, if_pos ⟨by rw [Prod.mk.injEq]; omega,
        by rw [hji.1, hji.2]; exact hin⟩, Board.cellAt, hji.1, hji.2]
    · rw [if_neg hji, if_neg]
      rintro ⟨h1, _⟩
      rw [Prod.mk.injEq] at h1
      exact hji ⟨by omega, by omega⟩

theorem foldl_bumpStep_shape (x y : Int) :
    ∀ (L : List (Int × Int)) (bb : Board), shapeEq bb (L.foldl (bumpStep x y) bb) := by
  intro L
  induction L with
  | nil => exact fun bb => shapeEq_refl bb
  | cons o t ih =>
    intro bb
    exact shapeEq_trans (bumpStep_shape x y bb o) (ih (bumpStep x y bb o))

/-- The whole neighbour loop, described cell by cell: a cell is bumped
exactly when some offset of the loop reaches it in bounds (each position is
reached by at most one offset since the offset list has no duplicates). -/
theorem foldl_bumpStep_cells (x y : Int) :
    ∀ (L : List (Int × Int)), L.Nodup → ∀ (bb : Board) (j i : Int),
      (L.foldl (bumpStep x y) bb).cells j i =
        if (i - x, j - y) ∈ L ∧ inBds bb i j
        then Cell.incrementAdjacentMines (bb.cells j i) else bb.cells j i := by
  intro L
  induction L with
  | nil =>
    intro _ bb j i
    rw [List.foldl_nil, if_neg]
    rintro ⟨h, _⟩
    exact absurd h (List.not_mem_nil _)
  | cons o t ih =>
    intro hnd bb j i
    rw [List.foldl_cons, ih (List.nodup_cons.mp hnd).2 (bumpStep x y bb o) j i]
    have hshape := bumpStep_shape x y bb o
    have hBds : inBds (bumpStep x y bb o) i j ↔ inBds bb i j := by
      unfold inBds; rw [hshape.1, hshape.2.1]
    by_cases hh : (i - x, j - y) = o
    · have hmem : (i - x, j - y) ∈ o :: t := by rw [hh]; exact List.mem_cons_self o t
      have hnt : (i - x, j - y) ∉ t := by rw [hh]; exact (List.nodup_cons.mp hnd).1
      rw [if_neg (fun hc => hnt hc.1), bumpStep_cells]
      by_cases hin : inBds bb i j
      · rw [if_pos ⟨hh, hin⟩, if_pos ⟨hmem, hin⟩]
      · rw [if_neg (fun hc => hin hc.2), if_neg (fun hc => hin hc.2)]
    · have hcell : (bumpStep x y bb o).cells j i = bb.cells j i := by
        rw [bumpStep_cells, if_neg (fun hc => hh hc.1)]
      rw [hcell]
      have hor : ((i - x, j - y) ∈ o :: t) ↔ ((i - x, j - y) ∈ t) := by
        rw [List.mem_cons]; exact or_iff_right hh
      simp only [hBds, hor]

/-! Effect of the whole adjacency bump and of a single mine placement. -/

theorem inBds_setCell (b : Board) (x y : Int) (c : Cell) (p q : Int) :
    inBds (b.setCell x y c) p q ↔ inBds b p q := Iff.rfl

theorem outOfRange_setCell (b : Board) (x y : Int) (c : Cell) (p q : Int) :
    outOfRange (b.setCell x y c) p q = outOfRange b p q := rfl

theorem incAdjBoard_cells (b : Board) (x y j i : Int) :
    (b.incrementAdjacentMines x y).cells j i =
      if (i - x, j - y) ∈ offsets ∧ inBds b i j
      then Cell.incrementAdjacentMines (b.cells j i) else b.cells j i :=
  foldl_bumpStep_cells x y offsets offsets_nodup b j i

theorem incAdjBoard_shape (b : Board) (x y : Int) :
    shapeEq b (b.incrementAdjacentMines x y) :=
  foldl_bumpStep_shape x y offsets b

theorem incAdjBoard_isMine (b : Board) (x y j i : Int) :
    ((b.incrementAdjacentMines x y).cells j i).isMine = (b.cells j i).isMine := by
  rw [incAdjBoard_cells]
  split
  · rw [incrementAdjacentMines_cell_isMine]
  · rfl

theorem incAdjBoard_state (b : Board) (x y j i : Int) :
    ((b.incrementAdjacentMines x y).cells j i).state = (b.cells j i).state := by
  rw [incAdjBoard_cells]
  split
  · rw [incrementAdjacentMines_cell_state]
  · rfl

theorem placeMineAt_shape (b : Board) (x y : Int) : shapeEq b (placeMineAt b x y) := by
  unfold placeMineAt
  exact @shapeEq_trans b (b.setCell x y (Cell.setMine (b.cellAt x y) true)) _
    ⟨rfl, rfl, rfl, rfl⟩
    (incAdjBoard_shape (b.setCell x y (Cell.setMine (b.cellAt x y) true)) x y)

theorem placeMineAt_isMine (b : Board) (x y j i : Int) :
    ((placeMineAt b x y).cells j i).isMine =
      if j = y ∧ i = x then true else (b.cells j i).isMine := by
  unfold placeMineAt
  rw [incAdjBoard_isMine, setCell_cells]
  split
  · rfl
  · rfl

theorem placeMineAt_state (b : Board) (x y j i : Int) :
    ((placeMineAt b x y).cells j i).state = (b.cells j i).state := by
  unfold placeMineAt
  rw [incAdjBoard_state, setCell_cells]
  split
  · rename_i h
    rw [setMine_state, Board.cellAt, h.1, h.2]
  · rfl

/-- The freshly placed mine has its adjacency count reset to zero. -/
theorem placeMineAt_target (b : Board) (x y : Int) :
    ((placeMineAt b x y).cells y x).adjacentMines = 0 := by
  unfold placeMineAt
  rw [incAdjBoard_cells, if_neg, setCell_cells, if_pos ⟨rfl, rfl⟩]
  · rfl
  · rintro ⟨h, _⟩
    have h0 : ((0, 0) : Int × Int) ∈ offsets := by
      have e1 : x - x = (0 : Int) := by omega
      have e2 : y - y = (0 : Int) := by omega
      rw [e1, e2] at h
      exact h
    exact zero_not_mem_offsets h0

/-- Cells other than the target keep their mine flag and get their
adjacency count bumped exactly when they are an in-bounds neighbour of the
new mine and are not themselves mines. -/
theorem placeMineAt_other (b : Board) (x y j i : Int) (hne : ¬(j = y ∧ i = x)) :
    (placeMineAt b x y).cells j i =
      if (i - x, j - y) ∈ offsets ∧ inBds b i j
      then Cell.incrementAdjacentMines (b.cells j i) else b.cells j i := by
  unfold placeMineAt
  rw [incAdjBoard_cells]
  have hcell : (b.setCell x y (Cell.setMine (b.cellAt x y) true)).cells j i = b.cells j i := by
    rw [setCell_cells, if_neg hne]
  rw [hcell]
  rfl

/-! Neighbour-mine counting. -/

theorem neighborMineCount_congr {b b2 : Board} (hsh : shapeEq b b2)
    (h : ∀ j i : Int, (b2.cells j i).isMine = (b.cells j i).isMine) (x y : Int) :
    neighborMineCount b2 x y = neighborMineCount b x y := by
  unfold neighborMineCount
  apply countP_agree
  intro o _
  rw [outOfRange_congr hsh]
  unfold Board.cellAt
  rw [h]

/-- Setting a mine on a previously mine-free in-bounds cell raises each
neighbour count by exactly one for cells adjacent to it. -/
theorem neighborMineCount_setMine (b : Board) (x y : Int) (hin : inBds b x y)
    (hm : (b.cellAt x y).isMine = false) (i j : Int) :
    neighborMineCount (b.setCell x y (Cell.setMine (b.cellAt x y) true)) i j =
      neighborMineCount b i j + (if ((x - i, y - j) : Int × Int) ∈ offsets then 1 else 0) := by
  have hagree : ∀ o ∈ offsets, o ≠ ((x - i, y - j) : Int × Int) →
      (!(outOfRange (b.setCell x y (Cell.setMine (b.cellAt x y) true)) (i + o.1) (j + o.2)) &&
        ((b.setCell x y (Cell.setMine (b.cellAt x y) true)).cellAt (i + o.1) (j + o.2)).isMine) =
      (!(outOfRange b (i + o.1) (j + o.2)) && (b.cellAt (i + o.1) (j + o.2)).isMine) := by
    intro o _ hne
    rw [outOfRange_setCell]
    have hc : ((b.setCell x y (Cell.setMine (b.cellAt x y) true)).cellAt (i + o.1) (j + o.2)) =
        b.cellAt (i + o.1) (j + o.2) := by
      show Board.cells _ _ _ = Board.cells _ _ _
      rw [setCell_cells, if_neg]
      rintro ⟨h1, h2⟩
      apply hne
      have : o = ((i + o.1) - i, (j + o.2) - j) := by
        rcases o with ⟨o1, o2⟩
        rw [Prod.mk.injEq]
        constructor <;> omega
      rw [this, Prod.mk.injEq]
      constructor <;> omega
    rw [hc]
  by_cases hmem : ((x - i, y - j) : Int × Int) ∈ offsets
  · rw [if_pos hmem]
    apply countP_flip _ _ ((x - i, y - j) : Int × Int) offsets offsets_nodup hmem
    · show (!(outOfRange _ (i + (x - i)) (j + (y - j))) &&
        ((b.setCell x y (Cell.setMine (b.cellAt x y) true)).cellAt (i + (x - i)) (j + (y - j))).isMine) = true
      have e1 : i + (x - i) = x := by omega
      have e2 : j + (y - j) = y := by omega
      rw [e1, e2, outOfRange_setCell, outOfRange_eq_false_iff.mpr hin]
      have hc : ((b.setCell x y (Cell.setMine (b.cellAt x y) true)).cellAt x y).isMine = true := by
        show (Board.cells _ _ _).isMine = true
        rw [setCell_cells, if_pos ⟨rfl, rfl⟩, setMine_isMine]
      rw [hc]
      rfl
    · show (!(outOfRange b (i + (x - i)) (j + (y - j))) &&
        (b.cellAt (i + (x - i)) (j + (y - j))).isMine) = false
      have e1 : i + (x - i) = x := by omega
      have e2 : j + (y - j) = y := by omega
      rw [e1, e2, hm, Bool.and_false]
    · exact hagree
  · rw [if_neg hmem, Nat.add_zero]
    apply countP_agree
    intro o ho
    exact hagree o ho (fun h => hmem (h ▸ ho))

/-! The adjacency invariant maintained by mine placement. -/

/-- Invariant: a mine cell has adjacency count 0; any other in-bounds cell
counts exactly its in-bounds mined 8-neighbours. -/
def INV (b : Board) : Prop :=
  ∀ j i : Int, inBds b i j →
    (b.cells j i).adjacentMines =
      (if (b.cells j i).isMine then 0 else neighborMineCount b i j)

/-- A board with no mines and all-zero adjacency counts satisfies the invariant. -/
theorem INV_of_fresh {b : Board}
    (h : ∀ j i : Int, inBds b i j →
      (b.cells j i).isMine = false ∧ (b.cells j i).adjacentMines = 0) : INV b := by
  intro j i hin
  have hz : neighborMineCount b i j = 0 := by
    apply List.countP_eq_zero.mpr
    intro o _
    by_cases hoR : outOfRange b (i + o.1) (j + o.2) = true
    · simp [hoR]
    · have hb2 : inBds b (i + o.1) (j + o.2) :=
        outOfRange_eq_false_iff.mp (Bool.not_eq_true _ ▸ hoR)
      have hmf := (h (j + o.2) (i + o.1) hb2).1
      simp [Board.cellAt, hmf]
  rw [(h j i hin).2, (h j i hin).1, if_neg (by simp), hz]

/-- One successful placement step preserves the adjacency invariant. -/
theorem INV_placeMineAt {b : Board} (hI : INV b) {x y : Int} (hin : inBds b x y)
    (hm : (b.cellAt x y).isMine = false) : INV (placeMineAt b x y) := by
  intro j i hin2
  have hin2b : inBds b i j := by
    have hsh := placeMineAt_shape b x y
    unfold inBds at hin2 ⊢
    rw [hsh.1, hsh.2.1] at hin2
    exact hin2
  have hnmc : neighborMineCount (placeMineAt b x y) i j =
      neighborMineCount b i j + (if ((x - i, y - j) : Int × Int) ∈ offsets then 1 else 0) := by
    have h1 : neighborMineCount (placeMineAt b x y) i j =
        neighborMineCount (b.setCell x y (Cell.setMine (b.cellAt x y) true)) i j := by
      apply neighborMineCount_congr
      · unfold placeMineAt
        exact incAdjBoard_shape (b.setCell x y (Cell.setMine (b.cellAt x y) true)) x y
      · intro p q
        unfold placeMineAt
        rw [incAdjBoard_isMine]
    rw [h1, neighborMineCount_setMine b x y hin hm]
  by_cases hji : j = y ∧ i = x
  · have h1 : ((placeMineAt b x y).cells j i).isMine = true := by
      rw [placeMineAt_isMine, if_pos hji]
    have h2 : ((placeMineAt b x y).cells j i).adjacentMines = 0 := by
      rw [hji.1, hji.2]
      exact placeMineAt_target b x y
    rw [h2, h1, if_pos rfl]
  · rw [placeMineAt_other b x y j i hji]
    by_cases hmine : (b.cells j i).isMine = true
    · have hIadj : (b.cells j i).adjacentMines = 0 := by
        have hIv := hI j i hin2b
        rw [hmine, if_pos rfl] at hIv
        exact hIv
      have hbump : Cell.incrementAdjacentMines (b.cells j i) = b.cells j i := by
        unfold Cell.incrementAdjacentMines
        rw [if_pos hmine]
      have hcell : (if ((i - x, j - y) : Int × Int) ∈ offsets ∧ inBds b i j
          then Cell.incrementAdjacentMines (b.cells j i) else b.cells j i) = b.cells j i := by
        split
        · exact hbump
        · rfl
      rw [hcell, hIadj, hmine, if_pos rfl]
    · have hmf : (b.cells j i).isMine = false := by
        cases hv : (b.cells j i).isMine
        · rfl
        · exact absurd hv hmine
      have hIadj : (b.cells j i).adjacentMines = neighborMineCount b i j := by
        have := hI j i hin2b
        rw [hmf, if_neg (by simp)] at this
        exact this
      have hsym : (((i - x, j - y) : Int × Int) ∈ offsets) ↔
          (((x - i, y - j) : Int × Int) ∈ offsets) := by
        have e1 : x - i = -(i - x) := by omega
        have e2 : y - j = -(j - y) := by omega
        rw [e1, e2]
        exact neg_mem_offsets
      by_cases hmem : ((i - x, j - y) : Int × Int) ∈ offsets
      · rw [if_pos ⟨hmem, hin2b⟩]
        have hv1 : (Cell.incrementAdjacentMines (b.cells j i)).isMine = false := by
          rw [incrementAdjacentMines_cell_isMine, hmf]
        have hv2 : (Cell.incrementAdjacentMines (b.cells j i)).adjacentMines =
            (b.cells j i).adjacentMines + 1 := by
          unfold Cell.incrementAdjacentMines
          rw [if_neg (by rw [hmf]; simp)]
        rw [hv1, if_neg (by simp), hv2, hIadj, hnmc, if_pos (hsym.mp hmem)]
      · rw [if_neg (fun hc => hmem hc.1), hmf, if_neg (by simp), hIadj, hnmc,
          if_neg (fun hc => hmem (hsym.mpr hc)), Nat.add_zero]

/-! Placement run lemmas. -/

theorem mineFree_iff {b : Board} :
    mineFree b = true ↔ ∀ j i : Int, inBds b i j → (b.cells j i).isMine = false := by
  unfold mineFree
  rw [List.all_eq_true]
  constructor
  · intro h j i hin
    have hv := h (j, i) (mem_gridCoords_of_inBds hin)
    simpa using hv
  · intro h p hp
    have hm := mem_gridCoords.mp hp
    have hv := h p.1 p.2 ⟨hm.2.2.1, hm.2.2.2, hm.1, hm.2.1⟩
    simpa using hv

theorem countMines_eq_zero {b : Board} (h : mineFree b = true) : countMines b = 0 := by
  apply List.countP_eq_zero.mpr
  intro p hp
  have hm := mem_gridCoords.mp hp
  have hv := mineFree_iff.mp h p.1 p.2 ⟨hm.2.2.1, hm.2.2.2, hm.1, hm.2.1⟩
  simp [hv]

theorem countMines_placeMineAt {b : Board} {x y : Int} (hin : inBds b x y)
    (hm : (b.cellAt x y).isMine = false) :
    countMines (placeMineAt b x y) = countMines b + 1 := by
  unfold countMines
  rw [gridCoords_congr (placeMineAt_shape b x y)]
  apply countP_flip _ _ ((y, x) : Int × Int) (gridCoords b) (nodup_gridCoords b)
    (mem_gridCoords_of_inBds hin)
  · show ((placeMineAt b x y).cells y x).isMine = true
    rw [placeMineAt_isMine, if_pos ⟨rfl, rfl⟩]
  · exact hm
  · intro a _ hne
    show ((placeMineAt b x y).cells a.1 a.2).isMine = (b.cells a.1 a.2).isMine
    rw [placeMineAt_isMine, if_neg]
    rintro ⟨h1, h2⟩
    exact hne (Prod.ext h1 h2)

/-- The sampled linear index always lands in bounds. -/
theorem drawCoords_inBds {b : Board} {d : Nat} (h : d < b.width * b.height) :
    inBds b ((d % b.width : Nat) : Int) ((d / b.width : Nat) : Int) := by
  have hw : 0 < b.width := by
    rcases Nat.eq_zero_or_pos b.width with h0 | h0
    · rw [h0] at h
      simp at h
    · exact h0
  have h1 : d % b.width < b.width := Nat.mod_lt _ hw
  have h2 : d / b.width < b.height := by
    rw [Nat.div_lt_iff_lt_mul hw]
    calc d < b.width * b.height := h
    _ = b.height * b.width := Nat.mul_comm _ _
  exact ⟨Int.natCast_nonneg _, by exact_mod_cast h1, Int.natCast_nonneg _, by exact_mod_cast h2⟩

/-- Everything the placement loop does to the board, short of the adjacency
invariant: shape preserved, no cell state touched, the excluded cell's mine
flag untouched, and the mine count grows exactly with the counter. -/
theorem placeMinesGo_run (exX exY : Int) :
    ∀ (ds : List Nat) (b : Board) (placed : Int),
      (∀ d ∈ ds, d < b.width * b.height) →
      shapeEq b (placeMinesGo exX exY b placed ds).1 ∧
      (∀ j i : Int, ((placeMinesGo exX exY b placed ds).1.cells j i).state = (b.cells j i).state) ∧
      (((placeMinesGo exX exY b placed ds).1.cellAt exX exY).isMine =
        (b.cellAt exX exY).isMine) ∧
      ((countMines (placeMinesGo exX exY b placed ds).1 : Int) =
        (countMines b : Int) + ((placeMinesGo exX exY b placed ds).2 - placed)) := by
  intro ds
  induction ds with
  | nil =>
    intro b placed _
    refine ⟨shapeEq_refl b, fun j i => rfl, rfl, ?_⟩
    show (countMines b : Int) = (countMines b : Int) + (placed - placed)
    omega
  | cons d rest ih =>
    intro b placed hds
    simp only [placeMinesGo]
    by_cases hlt : placed < b.mineCount
    · rw [if_pos hlt]
      have hin : inBds b ((d % b.width : Nat) : Int) ((d / b.width : Nat) : Int) :=
        drawCoords_inBds (hds d (List.mem_cons_self _ _))
      by_cases hg : (((d % b.width : Nat) : Int) ≠ exX ∨ ((d / b.width : Nat) : Int) ≠ exY) ∧
          (b.cellAt ((d % b.width : Nat) : Int) ((d / b.width : Nat) : Int)).isMine = false
      · rw [if_pos hg]
        have hshape1 := placeMineAt_shape b ((d % b.width : Nat) : Int) ((d / b.width : Nat) : Int)
        have hds2 : ∀ e ∈ rest,
            e < (placeMineAt b ((d % b.width : Nat) : Int) ((d / b.width : Nat) : Int)).width *
              (placeMineAt b ((d % b.width : Nat) : Int) ((d / b.width : Nat) : Int)).height := by
          intro e he
          rw [hshape1.1, hshape1.2.1]
          exact hds e (List.mem_cons_of_mem _ he)
        obtain ⟨ihs, ihst, ihex, ihc⟩ :=
          ih (placeMineAt b ((d % b.width : Nat) : Int) ((d / b.width : Nat) : Int)) (placed + 1) hds2
        refine ⟨shapeEq_trans hshape1 ihs, ?_, ?_, ?_⟩
        · intro j i
          rw [ihst j i, placeMineAt_state]
        · rw [ihex]
          show ((placeMineAt b _ _).cells exY exX).isMine = (b.cells exY exX).isMine
          rw [placeMineAt_isMine, if_neg]
          rintro ⟨h1, h2⟩
          rcases hg.1 with hx | hy
          · exact hx h2.symm
          · exact hy h1.symm
        · rw [ihc, countMines_placeMineAt hin hg.2]
          omega
      · rw [if_neg hg]
        exact ih b placed (fun e he => hds e (List.mem_cons_of_mem _ he))
    · rw [if_neg hlt]
      refine ⟨shapeEq_refl b, fun j i => rfl, rfl, ?_⟩
      show (countMines b : Int) = (countMines b : Int) + (placed - placed)
      omega

/-- The placement loop preserves the adjacency invariant. -/
theorem placeMinesGo_INV (exX exY : Int) :
    ∀ (ds : List Nat) (b : Board) (placed : Int),
      (∀ d ∈ ds, d < b.width * b.height) → INV b →
      INV (placeMinesGo exX exY b placed ds).1 := by
  intro ds
  induction ds with
  | nil =>
    intro b placed _ hI
    exact hI
  | cons d rest ih =>
    intro b placed hds hI
    simp only [placeMinesGo]
    by_cases hlt : placed < b.mineCount
    · rw [if_pos hlt]
      have hin : inBds b ((d % b.width : Nat) : Int) ((d / b.width : Nat) : Int) :=
        drawCoords_inBds (hds d (List.mem_cons_self _ _))
      by_cases hg : (((d % b.width : Nat) : Int) ≠ exX ∨ ((d / b.width : Nat) : Int) ≠ exY) ∧
          (b.cellAt ((d % b.width : Nat) : Int) ((d / b.width : Nat) : Int)).isMine = false
      · rw [if_pos hg]
        have hshape1 := placeMineAt_shape b ((d % b.width : Nat) : Int) ((d / b.width : Nat) : Int)
        apply ih
        · intro e he
          rw [hshape1.1, hshape1.2.1]
          exact hds e (List.mem_cons_of_mem _ he)
        · exact INV_placeMineAt hI hin hg.2
      · rw [if_neg hg]
        exact ih b placed (fun e he => hds e (List.mem_cons_of_mem _ he)) hI
    · rw [if_neg hlt]
      exact hI

/-! Claim theorems: mine placement. -/

/-- C3: for every board in the pre-placement state (no mine placed yet, as
guaranteed by deferred placement) with `0 < mineCount < width*height`, once
`placeMines(excludedX, excludedY)` completes (the `minesPlaced` counter
reached `mineCount`), exactly `mineCount` cells have `isMine = true`.  The
draw list is the stream of sampled linear indices, each in
`[0, width*height)` as `uniform_int_distribution` guarantees. -/
theorem c3_placement_count (b : Board) (exX exY : Int) (ds : List Nat)
    (hfree : mineFree b = true)
    (hds : ∀ d ∈ ds, d < b.width * b.height)
    (hm1 : 0 < b.mineCount)
    (hm2 : b.mineCount < (b.width : Int) * (b.height : Int))
    (hcomp : (placeMinesGo exX exY b 0 ds).2 = b.mineCount) :
    (countMines (b.placeMines exX exY ds) : Int) = b.mineCount := by
  have hrun := (placeMinesGo_run exX exY ds b 0 hds).2.2.2
  unfold Board.placeMines
  rw [hrun, countMines_eq_zero hfree, hcomp]
  omega

/-- Witness for C3 on a concrete 2x2 board with one mine: the single draw 3
lands at (1,1), distinct from the excluded (0,0), completing placement. -/
theorem c3_placement_count_witness :
    mineFree (mkBoard 2 2 1) = true ∧
    (∀ d ∈ ([3] : List Nat), d < (mkBoard 2 2 1).width * (mkBoard 2 2 1).height) ∧
    0 < (mkBoard 2 2 1).mineCount ∧
    (mkBoard 2 2 1).mineCount < ((mkBoard 2 2 1).width : Int) * ((mkBoard 2 2 1).height : Int) ∧
    (placeMinesGo 0 0 (mkBoard 2 2 1) 0 [3]).2 = (mkBoard 2 2 1).mineCount ∧
    (countMines ((mkBoard 2 2 1).placeMines 0 0 [3]) : Int) = (mkBoard 2 2 1).mineCount :=
  ⟨by decide, by decide, by decide, by decide, by decide,
    c3_placement_count (mkBoard 2 2 1) 0 0 [3] (by decide) (by decide) (by decide)
      (by decide) (by decide)⟩

/-- C4: for every board in the pre-placement state (in particular the
excluded cell carries no mine yet) and every excluded coordinate, after
`placeMines(excludedX, excludedY)` completes, the excluded cell does not
contain a mine: the guard `x != excludedX || y != excludedY` never lets a
draw land there. -/
theorem c4_placement_exclusion (b : Board) (exX exY : Int) (ds : List Nat)
    (hds : ∀ d ∈ ds, d < b.width * b.height)
    (hex : (b.cellAt exX exY).isMine = false)
    (hcomp : (placeMinesGo exX exY b 0 ds).2 = b.mineCount) :
    ((b.placeMines exX exY ds).cellAt exX exY).isMine = false := by
  have h := (placeMinesGo_run exX exY ds b 0 hds).2.2.1
  unfold Board.placeMines
  rw [h, hex]

/-- Witness for C4 on the concrete 2x2 board, excluded cell (0,0). -/
theorem c4_placement_exclusion_witness :
    (∀ d ∈ ([3] : List Nat), d < (mkBoard 2 2 1).width * (mkBoard 2 2 1).height) ∧
    ((mkBoard 2 2 1).cellAt 0 0).isMine = false ∧
    (placeMinesGo 0 0 (mkBoard 2 2 1) 0 [3]).2 = (mkBoard 2 2 1).mineCount ∧
    (((mkBoard 2 2 1).placeMines 0 0 [3]).cellAt 0 0).isMine = false :=
  ⟨by decide, by decide, by decide,
    c4_placement_exclusion (mkBoard 2 2 1) 0 0 [3] (by decide) (by decide) (by decide)⟩

/-- C5: starting from a fresh grid (no mines, all adjacency counts zero),
after `placeMines` every in-bounds non-mine cell's `adjacentMines` equals
the exact number of mines among its in-bounds 8-neighbours, and every mine
cell has `adjacentMines = 0`; both facts are packaged in the single
conditional equation below. -/
theorem c5_adjacency (b : Board) (exX exY : Int) (ds : List Nat) (j i : Int)
    (hfresh : ∀ q p : Int, inBds b p q →
      (b.cells q p).isMine = false ∧ (b.cells q p).adjacentMines = 0)
    (hds : ∀ d ∈ ds, d < b.width * b.height)
    (hin : inBds (b.placeMines exX exY ds) i j) :
    ((b.placeMines exX exY ds).cells j i).adjacentMines =
      (if ((b.placeMines exX exY ds).cells j i).isMine then 0
       else neighborMineCount (b.placeMines exX exY ds) i j) :=
  placeMinesGo_INV exX exY ds b 0 hds (INV_of_fresh hfresh) j i hin

/-- Witness for C5 on the concrete 2x2 board: after the mine lands at
(1,1), cell (0,0) is not a mine and counts exactly one neighbouring mine. -/
theorem c5_adjacency_witness :
    (∀ d ∈ ([3] : List Nat), d < (mkBoard 2 2 1).width * (mkBoard 2 2 1).height) ∧
    inBds ((mkBoard 2 2 1).placeMines 0 0 [3]) 0 0 ∧
    (((mkBoard 2 2 1).placeMines 0 0 [3]).cells 0 0).adjacentMines =
      (if (((mkBoard 2 2 1).placeMines 0 0 [3]).cells 0 0).isMine then 0
       else neighborMineCount ((mkBoard 2 2 1).placeMines 0 0 [3]) 0 0) :=
  ⟨by decide, by decide,
    c5_adjacency (mkBoard 2 2 1) 0 0 [3] 0 0 (fun q p _ => ⟨rfl, rfl⟩)
      (by decide) (by decide)⟩

/-! Claim theorems: board construction (C9). -/

/-- C9 counterexample: the source constructor performs no validation.  With
`mineCount = 100` on a 3x3 grid the parameters are invalid (the spec-modelled
checked constructor rejects them), yet `Board(3, 3, 100)` happily produces a
board carrying those very parameters — no construction error occurs. -/
theorem c9_counterexample :
    validParams 3 3 100 = false ∧
    (mkBoardChecked 3 3 100).isNone = true ∧
    (mkBoard 3 3 100).width = 3 ∧
    (mkBoard 3 3 100).height = 3 ∧
    (mkBoard 3 3 100).mineCount = 100 ∧
    countMines (mkBoard 3 3 100) = 0 :=
  ⟨by decide, by decide, rfl, rfl, rfl, by decide⟩

/-- C9 (amended): board construction is total and unvalidated — for every
width, height and mine count, including invalid combinations, the
constructor produces a board holding exactly those parameters, with every
cell Hidden, mine-free and at adjacency zero, and the first click pending. -/
theorem c9_construction_unchecked (w h : Nat) (m : Int) :
    (mkBoard w h m).width = w ∧
    (mkBoard w h m).height = h ∧
    (mkBoard w h m).mineCount = m ∧
    (mkBoard w h m).firstClick = true ∧
    (∀ j i : Int, (mkBoard w h m).cells j i = Cell.init) :=
  ⟨rfl, rfl, rfl, rfl, fun _ _ => rfl⟩

/-! Flood-fill machinery. -/

theorem revealGo_nil (f : Nat) (b : Board) : revealGo f b [] = b := by
  cases f <;> rfl

/-- One unfolding of the worklist step (the body of `Board::revealCell`). -/
theorem revealGo_succ_cons (f : Nat) (b : Board) (x y : Int) (rest : List (Int × Int)) :
    revealGo (f + 1) b ((x, y) :: rest) =
      if outOfRange b x y then revealGo f b rest
      else if (b.cellAt x y).isRevealed || (b.cellAt x y).isFlagged then revealGo f b rest
      else if ((b.setCell x y (b.cellAt x y).reveal).cellAt x y).adjacentMines = 0 ∧
          ((b.setCell x y (b.cellAt x y).reveal).cellAt x y).isMine = false then
        revealGo f (b.setCell x y (b.cellAt x y).reveal) (neighborsOf x y ++ rest)
      else revealGo f (b.setCell x y (b.cellAt x y).reveal) rest := rfl

/-- A cell not Revealed and not Flagged is Hidden. -/
theorem state_hidden_of_not {c : Cell} (h : (c.isRevealed || c.isFlagged) = false) :
    c.state = CellState.Hidden := by
  cases hs : c.state
  · rfl
  · unfold Cell.isRevealed at h
    rw [hs] at h
    simp at h
  · unfold Cell.isFlagged at h
    rw [hs] at h
    simp at h

/-- Revealing one Hidden in-bounds cell lowers the unrevealed count by one. -/
theorem unrevealedCount_reveal {b : Board} {x y : Int} (hin : inBds b x y)
    (hH : (b.cellAt x y).state = CellState.Hidden) :
    unrevealedCount (b.setCell x y (b.cellAt x y).reveal) + 1 = unrevealedCount b := by
  unfold unrevealedCount
  rw [gridCoords_congr (show shapeEq b (b.setCell x y (b.cellAt x y).reveal)
    from ⟨rfl, rfl, rfl, rfl⟩)]
  symm
  apply countP_flip _ _ ((y, x) : Int × Int) (gridCoords b) (nodup_gridCoords b)
    (mem_gridCoords_of_inBds hin)
  · show (!(b.cells y x).isRevealed) = true
    unfold Cell.isRevealed
    rw [show (b.cells y x).state = CellState.Hidden from hH]
    rfl
  · show (!((b.setCell x y (b.cellAt x y).reveal).cells y x).isRevealed) = false
    rw [setCell_cells, if_pos ⟨rfl, rfl⟩]
    unfold Cell.isRevealed
    rw [reveal_state _ hH]
    rfl
  · intro a _ hne
    show (!(b.cells a.1 a.2).isRevealed) =
      (!((b.setCell x y (b.cellAt x y).reveal).cells a.1 a.2).isRevealed)
    rw [setCell_cells, if_neg]
    rintro ⟨h1, h2⟩
    exact hne (Prod.ext h1 h2)

/-- (The worklist never visits a cell twice in the sense of state changes:)
the only change a reveal run can make to a cell is Hidden to Revealed, and
mine flags and adjacency counts are never touched. -/
def cellEvolves (c c2 : Cell) : Prop :=
  c2.isMine = c.isMine ∧ c2.adjacentMines = c.adjacentMines ∧
    (c2.state = c.state ∨ (c.state = CellState.Hidden ∧ c2.state = CellState.Revealed))

theorem cellEvolves_refl (c : Cell) : cellEvolves c c := ⟨rfl, rfl, Or.inl rfl⟩

theorem cellEvolves_trans {c c2 c3 : Cell} (h1 : cellEvolves c c2) (h2 : cellEvolves c2 c3) :
    cellEvolves c c3 := by
  refine ⟨h2.1.trans h1.1, h2.2.1.trans h1.2.1, ?_⟩
  rcases h1.2.2 with hs1 | ⟨ha1, ha2⟩
  · rcases h2.2.2 with hs2 | ⟨hb1, hb2⟩
    · exact Or.inl (hs2.trans hs1)
    · exact Or.inr ⟨hs1 ▸ hb1, hb2⟩
  · rcases h2.2.2 with hs2 | ⟨hb1, hb2⟩
    · exact Or.inr ⟨ha1, hs2.trans ha2⟩
    · exact Or.inr ⟨ha1, hb2⟩

theorem cellEvolves_revealed {c c2 : Cell} (h : cellEvolves c c2)
    (hr : c.state = CellState.Revealed) : c2.state = CellState.Revealed := by
  rcases h.2.2 with hs | ⟨h1, _⟩
  · exact hs.trans hr
  · rw [hr] at h1
    cases h1

/-- The single reveal update evolves every cell. -/
theorem cellEvolves_step (b : Board) (x y : Int)
    (hH : (b.cellAt x y).state = CellState.Hidden) (j i : Int) :
    cellEvolves (b.cells j i) ((b.setCell x y (b.cellAt x y).reveal).cells j i) := by
  rw [setCell_cells]
  split
  · rename_i h
    rw [h.1, h.2]
    exact ⟨reveal_isMine _, reveal_adjacentMines _, Or.inr ⟨hH, reveal_state _ hH⟩⟩
  · exact cellEvolves_refl _

/-- Frame property of the reveal run, for any fuel: shape preserved and
every cell merely evolves (Hidden to Revealed at most once, nothing else). -/
theorem revealGo_frame :
    ∀ (f : Nat) (b : Board) (todo : List (Int × Int)),
      shapeEq b (revealGo f b todo) ∧
      ∀ j i : Int, cellEvolves (b.cells j i) ((revealGo f b todo).cells j i) := by
  intro f
  induction f with
  | zero => exact fun b todo => ⟨shapeEq_refl b, fun j i => cellEvolves_refl _⟩
  | succ f ih =>
    intro b todo
    match todo with
    | [] => exact ⟨shapeEq_refl b, fun j i => cellEvolves_refl _⟩
    | (x, y) :: rest =>
      rw [revealGo_succ_cons]
      by_cases h1 : outOfRange b x y = true
      · rw [if_pos h1]
        exact ih b rest
      · rw [if_neg h1]
        by_cases h2 : ((b.cellAt x y).isRevealed || (b.cellAt x y).isFlagged) = true
        · rw [if_pos h2]
          exact ih b rest
        · rw [if_neg h2]
          have hH : (b.cellAt x y).state = CellState.Hidden :=
            state_hidden_of_not (Bool.not_eq_true _ ▸ h2)
          have hstep : shapeEq b (b.setCell x y (b.cellAt x y).reveal) := ⟨rfl, rfl, rfl, rfl⟩
          split
          · obtain ⟨ihs, ihc⟩ := ih (b.setCell x y (b.cellAt x y).reveal) (neighborsOf x y ++ rest)
            exact ⟨shapeEq_trans hstep ihs,
              fun j i => cellEvolves_trans (cellEvolves_step b x y hH j i) (ihc j i)⟩
          · obtain ⟨ihs, ihc⟩ := ih (b.setCell x y (b.cellAt x y).reveal) rest
            exact ⟨shapeEq_trans hstep ihs,
              fun j i => cellEvolves_trans (cellEvolves_step b x y hH j i) (ihc j i)⟩

/-- Popping an in-bounds head whose cell is Hidden or already Revealed
leaves that cell Revealed at the end of the run. -/
theorem revealGo_head (f : Nat) (b : Board) (x y : Int) (rest : List (Int × Int))
    (hin : inBds b x y)
    (hs : (b.cellAt x y).state = CellState.Hidden ∨ (b.cellAt x y).state = CellState.Revealed) :
    ((revealGo (f + 1) b ((x, y) :: rest)).cellAt x y).state = CellState.Revealed := by
  rw [revealGo_succ_cons, if_neg (by rw [outOfRange_eq_false_iff.mpr hin]; simp)]
  rcases hs with hH | hR
  · have h2 : ((b.cellAt x y).isRevealed || (b.cellAt x y).isFlagged) = false := by
      unfold Cell.isRevealed Cell.isFlagged
      rw [hH]
      rfl
    rw [if_neg (by rw [h2]; simp)]
    have hcell : ((b.setCell x y (b.cellAt x y).reveal).cellAt x y).state =
        CellState.Revealed := by
      show ((b.setCell x y (b.cellAt x y).reveal).cells y x).state = CellState.Revealed
      rw [setCell_cells, if_pos ⟨rfl, rfl⟩]
      exact reveal_state _ hH
    split
    · exact cellEvolves_revealed
        ((revealGo_frame f (b.setCell x y (b.cellAt x y).reveal) (neighborsOf x y ++ rest)).2 y x)
        hcell
    · exact cellEvolves_revealed
        ((revealGo_frame f (b.setCell x y (b.cellAt x y).reveal) rest).2 y x) hcell
  · have h2 : ((b.cellAt x y).isRevealed || (b.cellAt x y).isFlagged) = true := by
      unfold Cell.isRevealed
      rw [hR]
      simp
    rw [if_pos h2]
    exact cellEvolves_revealed ((revealGo_frame f b rest).2 y x) hR

/-! Fuel irrelevance: the worklist run stabilizes at the standard
termination measure, which is exactly the termination argument for the
source's recursion (each cell is revealed at most once). -/

theorem neighborsOf_length (x y : Int) : (neighborsOf x y).length = 8 := rfl

theorem revealGo_fuel :
    ∀ (f : Nat) (b : Board) (todo : List (Int × Int)),
      9 * unrevealedCount b + todo.length ≤ f →
      revealGo (f + 1) b todo = revealGo f b todo := by
  intro f
  induction f using Nat.strong_induction_on with
  | _ f ih =>
    intro b todo hle
    match todo with
    | [] => rw [revealGo_nil, revealGo_nil]
    | (x, y) :: rest =>
      have hf : ∃ f2, f = f2 + 1 := ⟨f - 1, by simp at hle; omega⟩
      obtain ⟨f2, rfl⟩ := hf
      have hlen : ((x, y) :: rest).length = rest.length + 1 := rfl
      rw [hlen] at hle
      rw [revealGo_succ_cons (f2 + 1), revealGo_succ_cons f2]
      by_cases h1 : outOfRange b x y = true
      · rw [if_pos h1, if_pos h1]
        exact ih f2 (by omega) b rest (by omega)
      · rw [if_neg h1, if_neg h1]
        by_cases h2 : ((b.cellAt x y).isRevealed || (b.cellAt x y).isFlagged) = true
        · rw [if_pos h2, if_pos h2]
          exact ih f2 (by omega) b rest (by omega)
        · rw [if_neg h2, if_neg h2]
          have hin : inBds b x y := outOfRange_eq_false_iff.mp (Bool.not_eq_true _ ▸ h1)
          have hH : (b.cellAt x y).state = CellState.Hidden :=
            state_hidden_of_not (Bool.not_eq_true _ ▸ h2)
          have hu := unrevealedCount_reveal hin hH
          split
          · apply ih f2 (by omega)
            rw [List.length_append, neighborsOf_length]
            omega
          · exact ih f2 (by omega) _ rest (by omega)

theorem revealGo_fuel_ge :
    ∀ (k f : Nat) (b : Board) (todo : List (Int × Int)),
      9 * unrevealedCount b + todo.length ≤ f →
      revealGo (f + k) b todo = revealGo f b todo := by
  intro k
  induction k with
  | zero => intro f b todo _; rfl
  | succ k ih =>
    intro f b todo hle
    have h1 : f + (k + 1) = (f + k) + 1 := by omega
    rw [h1, revealGo_fuel (f + k) b todo (by omega), ih f b todo hle]

/-- Any fuel at least the termination measure computes `Board::revealCell`:
the recursion terminates with this common value. -/
theorem revealGo_eq_revealCell (b : Board) (x y : Int) (f : Nat)
    (h : 9 * unrevealedCount b + 1 ≤ f) :
    revealGo f b [(x, y)] = b.revealCell x y := by
  unfold Board.revealCell
  have hL : revealGo f b [(x, y)] = revealGo (9 * unrevealedCount b + 1) b [(x, y)] := by
    conv_lhs =>
      rw [show f = (9 * unrevealedCount b + 1) + (f - (9 * unrevealedCount b + 1)) from by omega]
    exact revealGo_fuel_ge _ _ b _ (by simp)
  have hR : revealGo (9 * unrevealedCount b + 2) b [(x, y)] =
      revealGo (9 * unrevealedCount b + 1) b [(x, y)] := by
    rw [show 9 * unrevealedCount b + 2 = (9 * unrevealedCount b + 1) + 1 from by omega]
    exact revealGo_fuel _ b _ (by simp)
  rw [hL, hR]

/-! No-op cases of `Board::revealCell`. -/

/-- Out-of-range coordinates are silently ignored. -/
theorem revealCell_out {b : Board} {x y : Int} (h : outOfRange b x y = true) :
    b.revealCell x y = b := by
  unfold Board.revealCell
  have h2 : 9 * unrevealedCount b + 2 = (9 * unrevealedCount b + 1) + 1 := by omega
  rw [h2, revealGo_succ_cons, if_pos h, revealGo_nil]

/-- A Revealed or Flagged target cell makes `revealCell` a no-op. -/
theorem revealCell_noop {b : Board} {x y : Int}
    (h : ((b.cellAt x y).isRevealed || (b.cellAt x y).isFlagged) = true) :
    b.revealCell x y = b := by
  unfold Board.revealCell
  have h2 : 9 * unrevealedCount b + 2 = (9 * unrevealedCount b + 1) + 1 := by omega
  rw [h2, revealGo_succ_cons]
  by_cases h1 : outOfRange b x y = true
  · rw [if_pos h1, revealGo_nil]
  · rw [if_neg h1, if_pos h, revealGo_nil]

/-- After `revealCell` on an in-bounds Hidden or Revealed cell the target
is Revealed. -/
theorem revealCell_target {b : Board} {x y : Int} (hin : inBds b x y)
    (hs : (b.cellAt x y).state = CellState.Hidden ∨
      (b.cellAt x y).state = CellState.Revealed) :
    ((b.revealCell x y).cellAt x y).state = CellState.Revealed := by
  unfold Board.revealCell
  have h2 : 9 * unrevealedCount b + 2 = (9 * unrevealedCount b + 1) + 1 := by omega
  rw [h2]
  exact revealGo_head _ b x y [] hin hs

/-- Repeated `revealCell` on the same coordinate is idempotent. -/
theorem revealCell_idem (b : Board) (x y : Int) :
    (b.revealCell x y).revealCell x y = b.revealCell x y := by
  by_cases h1 : outOfRange b x y = true
  · rw [revealCell_out h1, revealCell_out h1]
  · have hin : inBds b x y := outOfRange_eq_false_iff.mp (Bool.not_eq_true _ ▸ h1)
    by_cases h2 : ((b.cellAt x y).isRevealed || (b.cellAt x y).isFlagged) = true
    · rw [revealCell_noop h2, revealCell_noop h2]
    · have hH : (b.cellAt x y).state = CellState.Hidden :=
        state_hidden_of_not (Bool.not_eq_true _ ▸ h2)
      have htgt : ((b.revealCell x y).cellAt x y).state = CellState.Revealed :=
        revealCell_target hin (Or.inl hH)
      apply revealCell_noop
      unfold Cell.isRevealed
      rw [htgt]
      simp

/-! Claim theorem C2. -/

/-- C2: the flood fill terminates — any fuel at least the standard measure
(nine times the number of unrevealed cells, plus one) yields one and the
same run result, namely `revealCell` —, it visits each cell at most once in
the sense the spec itself gives (each cell's state transitions Hidden to
Revealed at most once, mine flags and adjacency counts untouched, the
already-Revealed check acting as visited guard), and repeated `revealCell`
on the same coordinate is idempotent. -/
theorem c2_reveal_termination (b : Board) (x y : Int) :
    (∀ f : Nat, 9 * unrevealedCount b + 1 ≤ f →
      revealGo f b [(x, y)] = b.revealCell x y) ∧
    (∀ j i : Int,
      ((b.revealCell x y).cells j i).isMine = (b.cells j i).isMine ∧
      ((b.revealCell x y).cells j i).adjacentMines = (b.cells j i).adjacentMines ∧
      (((b.revealCell x y).cells j i).state = (b.cells j i).state ∨
        ((b.cells j i).state = CellState.Hidden ∧
          ((b.revealCell x y).cells j i).state = CellState.Revealed))) ∧
    (b.revealCell x y).revealCell x y = b.revealCell x y :=
  ⟨fun f hf => revealGo_eq_revealCell b x y f hf,
    fun j i => (revealGo_frame (9 * unrevealedCount b + 2) b [(x, y)]).2 j i,
    revealCell_idem b x y⟩

/-- Witness for C2 at a concrete fresh 2x2 board: fuel 40 exceeds the
measure 37 and computes the same board as `revealCell`. -/
theorem c2_reveal_termination_witness :
    9 * unrevealedCount (mkBoard 2 2 1) + 1 ≤ 40 ∧
    revealGo 40 (mkBoard 2 2 1) [(0, 0)] = (mkBoard 2 2 1).revealCell 0 0 :=
  ⟨by decide, (c2_reveal_termination (mkBoard 2 2 1) 0 0).1 40 (by decide)⟩

/-! Claim theorem C6, with the flag lemmas it needs. -/

theorem flagCell_shape (b : Board) (x y : Int) : shapeEq b (b.flagCell x y) := by
  unfold Board.flagCell
  split
  · exact shapeEq_refl b
  · exact ⟨rfl, rfl, rfl, rfl⟩

/-- C6: `revealCell` silently ignores out-of-range coordinates; it is a
no-op on a Revealed or Flagged target; and flagging a Hidden cell then
calling `revealCell` on it leaves the whole board unchanged by the reveal,
the cell remaining Flagged, not Revealed. -/
theorem c6_reveal_guards (b : Board) (p q r s x y : Int)
    (h1 : outOfRange b p q = true)
    (h2 : inBds b r s)
    (h3 : (b.cellAt r s).state = CellState.Revealed ∨
      (b.cellAt r s).state = CellState.Flagged)
    (h4 : inBds b x y)
    (h5 : (b.cellAt x y).state = CellState.Hidden) :
    b.revealCell p q = b ∧
    b.revealCell r s = b ∧
    ((b.flagCell x y).cellAt x y).state = CellState.Flagged ∧
    (b.flagCell x y).revealCell x y = b.flagCell x y ∧
    (((b.flagCell x y).revealCell x y).cellAt x y).state = CellState.Flagged := by
  have hflag : ((b.flagCell x y).cellAt x y).state = CellState.Flagged := by
    unfold Board.flagCell
    rw [if_neg (by rw [outOfRange_eq_false_iff.mpr h4]; simp)]
    show ((b.setCell x y (b.cellAt x y).toggleFlag).cells y x).state = CellState.Flagged
    rw [setCell_cells, if_pos ⟨rfl, rfl⟩]
    unfold Cell.toggleFlag
    rw [if_pos (show (b.cellAt x y).state = CellState.Hidden from h5)]
  have hnoopF : (b.flagCell x y).revealCell x y = b.flagCell x y := by
    apply revealCell_noop
    unfold Cell.isFlagged
    rw [hflag]
    simp
  refine ⟨revealCell_out h1, ?_, hflag, hnoopF, by rw [hnoopF]; exact hflag⟩
  apply revealCell_noop
  rcases h3 with hv | hv
  · unfold Cell.isRevealed
    rw [hv]
    simp
  · unfold Cell.isFlagged
    rw [hv]
    simp

/-- Witness for C6 on a 2x2 board with cell (1,1) flagged: coordinate
(5,0) is out of range, (1,1) is Flagged, (0,0) is Hidden. -/
theorem c6_reveal_guards_witness :
    outOfRange ((mkBoard 2 2 1).flagCell 1 1) 5 0 = true ∧
    inBds ((mkBoard 2 2 1).flagCell 1 1) 1 1 ∧
    ((((mkBoard 2 2 1).flagCell 1 1)).cellAt 1 1).state = CellState.Flagged ∧
    inBds ((mkBoard 2 2 1).flagCell 1 1) 0 0 ∧
    ((((mkBoard 2 2 1).flagCell 1 1)).cellAt 0 0).state = CellState.Hidden ∧
    (((mkBoard 2 2 1).flagCell 1 1).revealCell 5 0 = (mkBoard 2 2 1).flagCell 1 1 ∧
      ((mkBoard 2 2 1).flagCell 1 1).revealCell 1 1 = (mkBoard 2 2 1).flagCell 1 1 ∧
      ((((mkBoard 2 2 1).flagCell 1 1).flagCell 0 0).cellAt 0 0).state = CellState.Flagged ∧
      (((mkBoard 2 2 1).flagCell 1 1).flagCell 0 0).revealCell 0 0 =
        ((mkBoard 2 2 1).flagCell 1 1).flagCell 0 0 ∧
      (((((mkBoard 2 2 1).flagCell 1 1).flagCell 0 0).revealCell 0 0).cellAt 0 0).state =
        CellState.Flagged) :=
  ⟨by decide, by decide, by decide, by decide, by decide,
    c6_reveal_guards ((mkBoard 2 2 1).flagCell 1 1) 5 0 1 1 0 0 (by decide) (by decide)
      (Or.inr (by decide)) (by decide) (by decide)⟩

/-! Claim theorem C7: the win condition. -/

theorem flagCell_out {b : Board} {x y : Int} (h : outOfRange b x y = true) :
    b.flagCell x y = b := by
  unfold Board.flagCell
  rw [if_pos h]

/-- C7: `checkWinCondition` is true exactly when every non-mine cell is
Revealed (the spec-worded scan `allNonMineRevealed`); mine cells' states are
ignored by it, so mines may stay Hidden or Flagged at a win; and flagging
or unflagging any cell (`flagCell` toggles both ways) never changes its
value. -/
theorem c7_win_condition (b : Board) (x y : Int) :
    b.checkWinCondition = allNonMineRevealed b ∧
    (b.flagCell x y).checkWinCondition = b.checkWinCondition := by
  constructor
  · unfold Board.checkWinCondition allNonMineRevealed
    apply all_agree
    intro p _
    cases hm : (b.cells p.1 p.2).isMine <;> simp [hm]
  · by_cases hR : outOfRange b x y = true
    · rw [flagCell_out hR]
    · unfold Board.checkWinCondition
      rw [gridCoords_congr (flagCell_shape b x y)]
      apply all_agree
      intro p _
      have hcell : ((b.flagCell x y).cells p.1 p.2).isMine = (b.cells p.1 p.2).isMine ∧
          ((b.flagCell x y).cells p.1 p.2).isRevealed = (b.cells p.1 p.2).isRevealed := by
        unfold Board.flagCell
        rw [if_neg hR, setCell_cells]
        split
        · rename_i hpq
          rw [hpq.1, hpq.2]
          exact ⟨toggleFlag_isMine _, toggleFlag_isRevealed _⟩
        · exact ⟨rfl, rfl⟩
      rw [hcell.1, hcell.2]

/-! Claim theorem C10: firstReveal after the first click. -/

/-- C10 counterexample: on a board whose first click is already processed
(`firstClick = false`, here with a still-Hidden in-range cell at (0,0)), a
further `firstReveal(0,0)` is not a no-op: it reveals the cell and changes
the board, because the source unconditionally falls through to
`revealCell(x, y)` after the gated placement block. -/
theorem c10_counterexample :
    ({ mkBoard 2 2 1 with firstClick := false } : Board).firstClick = false ∧
    (({ mkBoard 2 2 1 with firstClick := false } : Board).cellAt 0 0).state =
      CellState.Hidden ∧
    ((({ mkBoard 2 2 1 with firstClick := false } : Board).firstReveal 0 0 []).cellAt 0 0).state =
      CellState.Revealed ∧
    ({ mkBoard 2 2 1 with firstClick := false } : Board).firstReveal 0 0 [] ≠
      { mkBoard 2 2 1 with firstClick := false } := by
  have hfc : ({ mkBoard 2 2 1 with firstClick := false } : Board).firstClick = false := rfl
  have hH : (({ mkBoard 2 2 1 with firstClick := false } : Board).cellAt 0 0).state =
      CellState.Hidden := rfl
  have h1 : ({ mkBoard 2 2 1 with firstClick := false } : Board).firstReveal 0 0 [] =
      ({ mkBoard 2 2 1 with firstClick := false } : Board).revealCell 0 0 := by
    unfold Board.firstReveal
    rw [if_neg (by rw [hfc]; simp)]
  have h2 : ((({ mkBoard 2 2 1 with firstClick := false } : Board).firstReveal 0 0 []).cellAt
      0 0).state = CellState.Revealed := by
    rw [h1]
    exact revealCell_target (by decide) (Or.inl hH)
  refine ⟨hfc, hH, h2, fun he => ?_⟩
  have h3 := congrArg (fun bb : Board => (bb.cellAt 0 0).state) he
  simp only at h3
  rw [h2, hH] at h3
  cases h3

/-- C10 (amended): once the first reveal has been processed
(`firstClick = false`), a further `firstReveal(x, y)` places no mines (every
cell's mine flag is untouched), leaves the first-click flag false, and
behaves exactly as a plain `revealCell(x, y)`; repeating it at the same
coordinate changes nothing further.  It is however not a no-op on the board:
it still reveals, as the counterexample shows. -/
theorem c10_first_reveal_after (b : Board) (x y : Int) (ds ds2 : List Nat)
    (h : b.firstClick = false) :
    b.firstReveal x y ds = b.revealCell x y ∧
    (∀ j i : Int, ((b.firstReveal x y ds).cells j i).isMine = (b.cells j i).isMine) ∧
    (b.firstReveal x y ds).firstClick = false ∧
    (b.firstReveal x y ds).firstReveal x y ds2 = b.firstReveal x y ds := by
  have h1 : b.firstReveal x y ds = b.revealCell x y := by
    unfold Board.firstReveal
    rw [if_neg (by rw [h]; simp)]
  have hfr := revealGo_frame (9 * unrevealedCount b + 2) b [(x, y)]
  have hfc : (b.revealCell x y).firstClick = false := by
    have hv : (b.revealCell x y).firstClick = b.firstClick := hfr.1.2.2.2
    rw [hv, h]
  refine ⟨h1, ?_, ?_, ?_⟩
  · intro j i
    rw [h1]
    exact (hfr.2 j i).1
  · rw [h1]
    exact hfc
  · rw [h1]
    unfold Board.firstReveal
    rw [if_neg (by rw [hfc]; simp)]
    exact revealCell_idem b x y

/-- Witness for C10 on a concrete 2x2 board with the first click already
processed. -/
theorem c10_first_reveal_after_witness :
    ({ mkBoard 2 2 1 with firstClick := false } : Board).firstClick = false ∧
    ({ mkBoard 2 2 1 with firstClick := false } : Board).firstReveal 1 1 [0] =
      ({ mkBoard 2 2 1 with firstClick := false } : Board).revealCell 1 1 ∧
    (({ mkBoard 2 2 1 with firstClick := false } : Board).firstReveal 1 1 [0]).firstClick =
      false ∧
    (({ mkBoard 2 2 1 with firstClick := false } : Board).firstReveal 1 1 [0]).firstReveal
        1 1 [] =
      ({ mkBoard 2 2 1 with firstClick := false } : Board).firstReveal 1 1 [0] := by
  have hc := c10_first_reveal_after ({ mkBoard 2 2 1 with firstClick := false } : Board)
    1 1 [0] [] (by decide)
  exact ⟨by decide, hc.1, hc.2.2.1, hc.2.2.2⟩

/-! Safety of the flood fill: under the adjacency invariant, a worklist of
mine-free coordinates never reveals a mine. -/

theorem reveal_step_frame (b : Board) (x y j i : Int) :
    ((b.setCell x y (b.cellAt x y).reveal).cells j i).isMine = (b.cells j i).isMine ∧
    ((b.setCell x y (b.cellAt x y).reveal).cells j i).adjacentMines =
      (b.cells j i).adjacentMines := by
  rw [setCell_cells]
  split
  · rename_i h
    rw [h.1, h.2]
    exact ⟨reveal_isMine _, reveal_adjacentMines _⟩
  · exact ⟨rfl, rfl⟩

/-- The adjacency invariant only involves mine flags, adjacency counts and
the dimensions, so state-only changes preserve it. -/
theorem INV_states {b b2 : Board} (hsh : shapeEq b b2)
    (hmine : ∀ j i : Int, (b2.cells j i).isMine = (b.cells j i).isMine)
    (hadj : ∀ j i : Int, (b2.cells j i).adjacentMines = (b.cells j i).adjacentMines)
    (hI : INV b) : INV b2 := by
  intro j i hin
  have hinb : inBds b i j := by
    unfold inBds at hin ⊢
    rw [hsh.1, hsh.2.1] at hin
    exact hin
  rw [hadj, hmine, neighborMineCount_congr hsh hmine]
  exact hI j i hinb

theorem lossFree_of_noneRevealed {b : Board} (h : noneRevealed b = true) :
    b.checkLossCondition = false := by
  unfold noneRevealed at h
  unfold Board.checkLossCondition
  rw [List.all_eq_true] at h
  rw [List.any_eq_false]
  intro p hp
  have hv := h p hp
  cases hrev : (b.cells p.1 p.2).isRevealed
  · simp [hrev]
  · rw [hrev] at hv
    cases hv

/-- Revealing a non-mine cell cannot make the loss condition true. -/
theorem lossFree_reveal {b : Board} {x y : Int} (hm : (b.cellAt x y).isMine = false)
    (h : b.checkLossCondition = false) :
    (b.setCell x y (b.cellAt x y).reveal).checkLossCondition = false := by
  unfold Board.checkLossCondition at h ⊢
  rw [gridCoords_congr (show shapeEq b (b.setCell x y (b.cellAt x y).reveal)
    from ⟨rfl, rfl, rfl, rfl⟩)]
  rw [List.any_eq_false] at h ⊢
  intro p hp
  rw [setCell_cells]
  split
  · rename_i hpq
    rw [show ((b.cellAt x y).reveal.isMine && (b.cellAt x y).reveal.isRevealed)
        = (false && (b.cellAt x y).reveal.isRevealed) by rw [reveal_isMine, hm]]
    simp
  · exact h p hp

/-- A zero-adjacency non-mine cell has only mine-free in-bounds neighbours
(this is where the adjacency invariant feeds the flood fill). -/
theorem neighbors_mine_free {b : Board} {x y : Int} (hI : INV b) (hin : inBds b x y)
    (h0 : (b.cellAt x y).adjacentMines = 0) (hm : (b.cellAt x y).isMine = false) :
    ∀ q ∈ neighborsOf x y, inBds b q.1 q.2 → (b.cellAt q.1 q.2).isMine = false := by
  have hnmc : neighborMineCount b x y = 0 := by
    have hv := hI y x hin
    rw [show (b.cells y x).isMine = false from hm, if_neg (by simp)] at hv
    rw [← hv]
    exact h0
  intro q hq hqin
  rcases List.mem_map.mp hq with ⟨o, ho, rfl⟩
  have hz := List.countP_eq_zero.mp hnmc o ho
  have hR : outOfRange b (x + o.1) (y + o.2) = false := outOfRange_eq_false_iff.mpr hqin
  cases hmv : (b.cellAt (x + o.1) (y + o.2)).isMine
  · rfl
  · exact absurd (by rw [hR, hmv]; rfl) hz

/-- The flood fill never reveals a mine: if the board satisfies the
adjacency invariant, no mine is revealed yet, and every in-bounds worklist
coordinate is mine-free, the run keeps the loss condition false. -/
theorem revealGo_safe :
    ∀ (f : Nat) (b : Board) (todo : List (Int × Int)),
      INV b →
      (∀ q ∈ todo, inBds b q.1 q.2 → (b.cellAt q.1 q.2).isMine = false) →
      b.checkLossCondition = false →
      (revealGo f b todo).checkLossCondition = false := by
  intro f
  induction f with
  | zero => exact fun b todo _ _ hloss => hloss
  | succ f ih =>
    intro b todo hI htodo hloss
    match todo with
    | [] => exact hloss
    | (x, y) :: rest =>
      rw [revealGo_succ_cons]
      by_cases h1 : outOfRange b x y = true
      · rw [if_pos h1]
        exact ih b rest hI (fun q hq => htodo q (List.mem_cons_of_mem _ hq)) hloss
      · rw [if_neg h1]
        have hin : inBds b x y := outOfRange_eq_false_iff.mp (Bool.not_eq_true _ ▸ h1)
        by_cases h2 : ((b.cellAt x y).isRevealed || (b.cellAt x y).isFlagged) = true
        · rw [if_pos h2]
          exact ih b rest hI (fun q hq => htodo q (List.mem_cons_of_mem _ hq)) hloss
        · rw [if_neg h2]
          have hm : (b.cellAt x y).isMine = false :=
            htodo (x, y) (List.mem_cons_self _ _) hin
          have hI2 : INV (b.setCell x y (b.cellAt x y).reveal) :=
            @INV_states b (b.setCell x y (b.cellAt x y).reveal) ⟨rfl, rfl, rfl, rfl⟩
              (fun j i => (reveal_step_frame b x y j i).1)
              (fun j i => (reveal_step_frame b x y j i).2) hI
          have hloss2 : (b.setCell x y (b.cellAt x y).reveal).checkLossCondition = false :=
            lossFree_reveal hm hloss
          have hrest2 : ∀ q ∈ rest, inBds (b.setCell x y (b.cellAt x y).reveal) q.1 q.2 →
              ((b.setCell x y (b.cellAt x y).reveal).cellAt q.1 q.2).isMine = false := by
            intro q hq hqin
            have hv : ((b.setCell x y (b.cellAt x y).reveal).cellAt q.1 q.2).isMine =
                (b.cellAt q.1 q.2).isMine := (reveal_step_frame b x y q.2 q.1).1
            rw [hv]
            exact htodo q (List.mem_cons_of_mem _ hq) hqin
          split
          · rename_i hc
            apply ih _ _ hI2 _ hloss2
            intro q hq hqin
            rcases List.mem_append.mp hq with hqn | hqr
            · exact neighbors_mine_free hI2 hin hc.1 hc.2 q hqn hqin
            · exact hrest2 q hqr hqin
          · exact ih _ rest hI2 hrest2 hloss2

/-! The run of commands before the first `firstReveal`. -/

theorem flagCell_cells_frame (b : Board) (x y j i : Int) :
    ((b.flagCell x y).cells j i).isMine = (b.cells j i).isMine ∧
    ((b.flagCell x y).cells j i).adjacentMines = (b.cells j i).adjacentMines := by
  unfold Board.flagCell
  split
  · exact ⟨rfl, rfl⟩
  · rw [setCell_cells]
    split
    · rename_i hpq
      rw [hpq.1, hpq.2]
      exact ⟨toggleFlag_isMine _, toggleFlag_adjacentMines _⟩
    · exact ⟨rfl, rfl⟩

/-- A command that is not `firstReveal` never touches mine flags, adjacency
counts, dimensions, the mine count or the first-click flag. -/
theorem applyCmd_noFR_frame (b : Board) (c : Cmd) (h : notFirstRevealCmd c = true) :
    shapeEq b (applyCmd b c) ∧
    ∀ j i : Int, ((applyCmd b c).cells j i).isMine = (b.cells j i).isMine ∧
      ((applyCmd b c).cells j i).adjacentMines = (b.cells j i).adjacentMines := by
  cases c with
  | firstReveal x y ds => cases h
  | revealCell x y =>
    have hfr := revealGo_frame (9 * unrevealedCount b + 2) b [(x, y)]
    exact ⟨hfr.1, fun j i => ⟨(hfr.2 j i).1, (hfr.2 j i).2.1⟩⟩
  | flagCell x y =>
    exact ⟨flagCell_shape b x y, fun j i => flagCell_cells_frame b x y j i⟩

/-- Board reached from a fresh board after a command sequence. -/
def boardAfter (w h : Nat) (m : Int) (cs : List Cmd) : Board :=
  runCmds (mkBoard w h m) cs

/-- Runs without `firstReveal` preserve shape, mine flags and adjacency
counts. -/
theorem runCmds_noFR :
    ∀ (cs : List Cmd) (b : Board), noFirstRevealIn cs = true →
      shapeEq b (runCmds b cs) ∧
      ∀ j i : Int, ((runCmds b cs).cells j i).isMine = (b.cells j i).isMine ∧
        ((runCmds b cs).cells j i).adjacentMines = (b.cells j i).adjacentMines := by
  intro cs
  induction cs with
  | nil => exact fun b _ => ⟨shapeEq_refl b, fun j i => ⟨rfl, rfl⟩⟩
  | cons c rest ih =>
    intro b hall
    have hc : notFirstRevealCmd c = true := by
      unfold noFirstRevealIn at hall
      exact (List.all_cons .. ▸ hall |> Bool.and_eq_true_iff.mp).1
    have hrest : noFirstRevealIn rest = true := by
      unfold noFirstRevealIn at hall ⊢
      exact (List.all_cons .. ▸ hall |> Bool.and_eq_true_iff.mp).2
    have hstep := applyCmd_noFR_frame b c hc
    have hrun := ih (applyCmd b c) hrest
    have hfold : runCmds b (c :: rest) = runCmds (applyCmd b c) rest := rfl
    rw [hfold]
    exact ⟨shapeEq_trans hstep.1 hrun.1,
      fun j i => ⟨(hrun.2 j i).1.trans (hstep.2 j i).1,
        (hrun.2 j i).2.trans (hstep.2 j i).2⟩⟩

theorem noneRevealed_congr {b b2 : Board} (hsh : shapeEq b b2)
    (hst : ∀ j i : Int, (b2.cells j i).state = (b.cells j i).state) :
    noneRevealed b2 = noneRevealed b := by
  unfold noneRevealed
  rw [gridCoords_congr hsh]
  apply all_agree
  intro p _
  unfold Cell.isRevealed
  rw [hst]

/-! Claim C1. -/

/-- C1 counterexample: on a fresh 2x2 board with one mine, the single
command `firstReveal(5, 5)` — coordinates the UI can produce, since clicks
in the UI strip map below the grid — triggers placement (draw 0 puts the
mine at (0,0)) but reveals nothing, because `revealCell(5,5)` is ignored.
Afterwards a mine exists while no cell has ever been revealed, refuting
"no cell has isMine=true before the first reveal occurs"; and the next
command `revealCell(0,0)` makes the very first revealed cell a mine,
refuting "the cell first revealed is never a mine". -/
theorem c1_counterexample :
    noneRevealed (boardAfter 2 2 1 [Cmd.firstReveal 5 5 [0]]) = true ∧
    ((boardAfter 2 2 1 [Cmd.firstReveal 5 5 [0]]).cellAt 0 0).isMine = true ∧
    mineFree (boardAfter 2 2 1 [Cmd.firstReveal 5 5 [0]]) = false ∧
    (boardAfter 2 2 1 [Cmd.firstReveal 5 5 [0],
      Cmd.revealCell 0 0]).checkLossCondition = true := by
  refine ⟨by decide, by decide, by decide, by decide⟩

/-- C1 (amended): for a fresh board and any command sequence, (a) while no
`firstReveal` has run, no cell carries a mine (so any cell revealed by a
plain `revealCell` before placement is trivially not a mine), and (b) when
the placement-triggering `firstReveal(x, y)` targets an in-range Hidden
cell, its draws are in range, and no cell has been revealed yet, then that
cell ends up Revealed, and no revealed cell contains a mine after the
command — in particular the very first revealed cell is not a mine. -/
theorem c1_first_reveal_safe (w h : Nat) (m : Int) (cs : List Cmd) (x y : Int)
    (ds : List Nat)
    (hcs : noFirstRevealIn cs = true)
    (hin : inBds (boardAfter w h m cs) x y)
    (hH : ((boardAfter w h m cs).cellAt x y).state = CellState.Hidden)
    (hnr : noneRevealed (boardAfter w h m cs) = true)
    (hds : ∀ d ∈ ds, d < w * h) :
    mineFree (boardAfter w h m cs) = true ∧
    (((boardAfter w h m cs).firstReveal x y ds).cellAt x y).state = CellState.Revealed ∧
    ((boardAfter w h m cs).firstReveal x y ds).checkLossCondition = false := by
  obtain ⟨hsh1, hfrm1⟩ := runCmds_noFR cs (mkBoard w h m) hcs
  have hw1 : (boardAfter w h m cs).width = w := hsh1.1
  have hh1 : (boardAfter w h m cs).height = h := hsh1.2.1
  have hfc1 : (boardAfter w h m cs).firstClick = true := hsh1.2.2.2
  have hmf1 : mineFree (boardAfter w h m cs) = true := by
    apply mineFree_iff.mpr
    intro j i _
    exact (hfrm1 j i).1
  have hfr : (boardAfter w h m cs).firstReveal x y ds =
      Board.revealCell
        { (boardAfter w h m cs).placeMines x y ds with firstClick := false } x y := by
    unfold Board.firstReveal
    rw [if_pos hfc1]
  have hds1 : ∀ d ∈ ds, d < (boardAfter w h m cs).width * (boardAfter w h m cs).height := by
    intro d hd
    rw [hw1, hh1]
    exact hds d hd
  obtain ⟨psh, pst, pex, _⟩ := placeMinesGo_run x y ds (boardAfter w h m cs) 0 hds1
  have hfresh : ∀ j i : Int, inBds (boardAfter w h m cs) i j →
      ((boardAfter w h m cs).cells j i).isMine = false ∧
      ((boardAfter w h m cs).cells j i).adjacentMines = 0 :=
    fun j i _ => ⟨(hfrm1 j i).1, (hfrm1 j i).2⟩
  have pINV := placeMinesGo_INV x y ds (boardAfter w h m cs) 0 hds1 (INV_of_fresh hfresh)
  have hx1 : ((boardAfter w h m cs).cellAt x y).isMine = false :=
    mineFree_iff.mp hmf1 y x ⟨hin.1, hin.2.1, hin.2.2.1, hin.2.2.2⟩
  have hx3 : (((placeMinesGo x y (boardAfter w h m cs) 0 ds).1).cellAt x y).isMine = false := by
    rw [pex]
    exact hx1
  have hin3 : inBds ((placeMinesGo x y (boardAfter w h m cs) 0 ds).1) x y := by
    unfold inBds
    rw [psh.1, psh.2.1]
    exact hin
  have hH3 : (((placeMinesGo x y (boardAfter w h m cs) 0 ds).1).cellAt x y).state =
      CellState.Hidden := (pst y x).trans hH
  have hnr3 : noneRevealed ((placeMinesGo x y (boardAfter w h m cs) 0 ds).1) = true := by
    rw [noneRevealed_congr psh pst]
    exact hnr
  refine ⟨hmf1, ?_, ?_⟩
  · rw [hfr]
    exact revealCell_target hin3 (Or.inl hH3)
  · rw [hfr]
    unfold Board.revealCell
    apply revealGo_safe
    · exact pINV
    · intro q hq hqin
      rw [List.mem_singleton] at hq
      subst hq
      exact hx3
    · exact lossFree_of_noneRevealed hnr3

/-- Witness for C1 on a fresh 2x2 board, empty prior command sequence,
first reveal at (0,0) with the single draw 3 (mine lands at (1,1)). -/
theorem c1_first_reveal_safe_witness :
    noFirstRevealIn [] = true ∧
    inBds (boardAfter 2 2 1 []) 0 0 ∧
    ((boardAfter 2 2 1 []).cellAt 0 0).state = CellState.Hidden ∧
    noneRevealed (boardAfter 2 2 1 []) = true ∧
    (∀ d ∈ ([3] : List Nat), d < 2 * 2) ∧
    (mineFree (boardAfter 2 2 1 []) = true ∧
      (((boardAfter 2 2 1 []).firstReveal 0 0 [3]).cellAt 0 0).state = CellState.Revealed ∧
      ((boardAfter 2 2 1 []).firstReveal 0 0 [3]).checkLossCondition = false) :=
  ⟨by decide, by decide, by decide, by decide, by decide,
    c1_first_reveal_safe 2 2 1 [] 0 0 [3] (by decide) (by decide) (by decide)
      (by decide) (by decide)⟩

/-! Serialization round trip (C8). -/

/-- A serialized cell followed by anything deserializes back to the cell,
leaving exactly the rest of the stream. -/
theorem cell_round_trip (c : Cell) (tail : List Int) :
    Cell.deserialize (Cell.serialize c ++ tail) = (c, tail) := by
  rcases c with ⟨s, m, a⟩
  unfold Cell.serialize Cell.deserialize
  cases s <;> cases m <;>
    simp [stateCode, boolInt, decodeState, List.getD_cons_zero, List.getD_cons_succ]

/-- A row of serialized cells parses back to the row. -/
theorem parseRow_round :
    ∀ (cs : List Cell) (tail : List Int),
      parseRow cs.length ((cs.flatMap Cell.serialize) ++ tail) = (cs, tail) := by
  intro cs
  induction cs with
  | nil => intro tail; rfl
  | cons c rest ih =>
    intro tail
    have h1 : ((c :: rest).flatMap Cell.serialize) ++ tail =
        Cell.serialize c ++ ((rest.flatMap Cell.serialize) ++ tail) := by
      rw [List.flatMap_cons, List.append_assoc]
    rw [show (c :: rest).length = rest.length + 1 from rfl, h1]
    show ((Cell.deserialize _).1 :: (parseRow _ (Cell.deserialize _).2).1,
      (parseRow _ (Cell.deserialize _).2).2) = _
    rw [cell_round_trip, ih tail]

/-- Rows of serialized cells parse back to the rows, provided each row has
the advertised width. -/
theorem parseRows_round :
    ∀ (rs : List (List Cell)) (w : Nat) (tail : List Int),
      (∀ r ∈ rs, r.length = w) →
      parseRows rs.length w ((rs.flatMap fun r => r.flatMap Cell.serialize) ++ tail) =
        (rs, tail) := by
  intro rs
  induction rs with
  | nil => intro w tail _; rfl
  | cons r rest ih =>
    intro w tail hlen
    have h1 : ((r :: rest).flatMap fun r2 => r2.flatMap Cell.serialize) ++ tail =
        (r.flatMap Cell.serialize) ++
          ((rest.flatMap fun r2 => r2.flatMap Cell.serialize) ++ tail) := by
      rw [List.flatMap_cons, List.append_assoc]
    rw [show (r :: rest).length = rest.length + 1 from rfl, h1]
    show ((parseRow w _).1 :: (parseRows _ w (parseRow w _).2).1,
      (parseRows _ w (parseRow w _).2).2) = _
    have hr : parseRow w ((r.flatMap Cell.serialize) ++
        ((rest.flatMap fun r2 => r2.flatMap Cell.serialize) ++ tail)) =
        (r, (rest.flatMap fun r2 => r2.flatMap Cell.serialize) ++ tail) := by
      rw [← hlen r (List.mem_cons_self _ _)]
      exact parseRow_round r _
    rw [hr, ih w tail (fun r2 hr2 => hlen r2 (List.mem_cons_of_mem _ hr2))]

/-- The row-major grid snapshot of a board. -/
def gridRows (b : Board) : List (List Cell) :=
  (List.range b.height).map fun (j : Nat) =>
    (List.range b.width).map fun (i : Nat) => b.cells (j : Int) (i : Int)

/-- `Board::serialize`, written as header followed by the flattened
row-major grid snapshot. -/
theorem serialize_eq (b : Board) :
    b.serialize = (b.width : Int) :: (b.height : Int) :: b.mineCount ::
      boolInt b.firstClick ::
      ((gridRows b).flatMap fun r => r.flatMap Cell.serialize) := by
  unfold Board.serialize gridRows
  rw [List.flatMap_map]
  have hinner : ∀ j : Nat,
      (((List.range b.width).map fun (i : Nat) => b.cells (j : Int) (i : Int)).flatMap
        Cell.serialize) =
      ((List.range b.width).flatMap fun (i : Nat) => Cell.serialize (b.cells (j : Int) (i : Int))) :=
    fun j => List.flatMap_map _ _ _
  simp only [hinner]
  rfl

/-- The fields of `Board::deserialize`, read off its definition. -/
theorem deserialize_fields (l : List Int) :
    (Board.deserialize l).width = (l.getD 0 0).toNat ∧
    (Board.deserialize l).height = (l.getD 1 0).toNat ∧
    (Board.deserialize l).mineCount = l.getD 2 0 ∧
    (Board.deserialize l).firstClick = decide (l.getD 3 0 ≠ 0) ∧
    ∀ j i : Int, (Board.deserialize l).cells j i =
      (((parseRows (l.getD 1 0).toNat (l.getD 0 0).toNat (l.drop 4)).1).getD j.toNat
        []).getD i.toNat Cell.init :=
  ⟨rfl, rfl, rfl, rfl, fun j i => rfl⟩

theorem getD_map_range {α : Type} (n : Nat) (f : Nat → α) (d : α) (j : Nat) (hj : j < n) :
    ((List.range n).map f).getD j d = f j := by
  rw [List.getD_eq_getElem?_getD,
    List.getElem?_eq_getElem (by simpa using hj), List.getElem_map, List.getElem_range]
  rfl

/-- C8: deserializing the serialization of any board through the same
stream yields a board with identical width, height, mine count and
first-click flag, and an identical cell record (state, isMine,
adjacentMines) at every row-major grid position. -/
theorem c8_round_trip (b : Board) (j i : Nat) (hj : j < b.height) (hi : i < b.width) :
    (Board.deserialize b.serialize).width = b.width ∧
    (Board.deserialize b.serialize).height = b.height ∧
    (Board.deserialize b.serialize).mineCount = b.mineCount ∧
    (Board.deserialize b.serialize).firstClick = b.firstClick ∧
    (Board.deserialize b.serialize).cells (j : Nat) (i : Nat) = b.cells (j : Nat) (i : Nat) := by
  obtain ⟨hdw, hdh, hdm, hdf, hdc⟩ := deserialize_fields b.serialize
  have h0 : b.serialize.getD 0 0 = (b.width : Int) := by
    rw [serialize_eq, List.getD_cons_zero]
  have h1 : b.serialize.getD 1 0 = (b.height : Int) := by
    rw [serialize_eq, List.getD_cons_succ, List.getD_cons_zero]
  have h2 : b.serialize.getD 2 0 = b.mineCount := by
    rw [serialize_eq, List.getD_cons_succ, List.getD_cons_succ, List.getD_cons_zero]
  have h3 : b.serialize.getD 3 0 = boolInt b.firstClick := by
    rw [serialize_eq, List.getD_cons_succ, List.getD_cons_succ, List.getD_cons_succ,
      List.getD_cons_zero]
  have h4 : b.serialize.drop 4 = (gridRows b).flatMap fun r => r.flatMap Cell.serialize := by
    rw [serialize_eq]
    rfl
  have hlens : ∀ r ∈ gridRows b, r.length = b.width := by
    intro r hr
    rcases List.mem_map.mp hr with ⟨j2, _, rfl⟩
    simp
  have hrows : (parseRows (b.serialize.getD 1 0).toNat (b.serialize.getD 0 0).toNat
      (b.serialize.drop 4)).1 = gridRows b := by
    rw [h0, h1, Int.toNat_natCast, Int.toNat_natCast, h4,
      ← List.append_nil ((gridRows b).flatMap fun r => r.flatMap Cell.serialize),
      show b.height = (gridRows b).length by simp [gridRows],
      parseRows_round (gridRows b) b.width [] hlens]
  refine ⟨?_, ?_, ?_, ?_, ?_⟩
  · rw [hdw, h0, Int.toNat_natCast]
  · rw [hdh, h1, Int.toNat_natCast]
  · rw [hdm, h2]
  · rw [hdf, h3]
    cases hfc : b.firstClick <;> simp [boolInt]
  · rw [hdc, hrows, Int.toNat_natCast, Int.toNat_natCast,
      show (gridRows b).getD j [] =
        (List.range b.width).map fun (i2 : Nat) => b.cells (j : Int) (i2 : Int)
      from getD_map_range b.height _ [] j hj,
      getD_map_range b.width _ Cell.init i hi]

/-- Witness for C8 on a concrete board with a flag set and a mine placed. -/
theorem c8_round_trip_witness :
    0 < (((mkBoard 2 2 1).placeMines 0 0 [3]).flagCell 1 1).height ∧
    0 < (((mkBoard 2 2 1).placeMines 0 0 [3]).flagCell 1 1).width ∧
    ((Board.deserialize ((((mkBoard 2 2 1).placeMines 0 0 [3]).flagCell 1 1).serialize)).width =
        (((mkBoard 2 2 1).placeMines 0 0 [3]).flagCell 1 1).width ∧
      (Board.deserialize ((((mkBoard 2 2 1).placeMines 0 0 [3]).flagCell 1 1).serialize)).height =
        (((mkBoard 2 2 1).placeMines 0 0 [3]).flagCell 1 1).height ∧
      (Board.deserialize ((((mkBoard 2 2 1).placeMines 0 0 [3]).flagCell 1 1).serialize)).mineCount =
        (((mkBoard 2 2 1).placeMines 0 0 [3]).flagCell 1 1).mineCount ∧
      (Board.deserialize ((((mkBoard 2 2 1).placeMines 0 0 [3]).flagCell 1 1).serialize)).firstClick =
        (((mkBoard 2 2 1).placeMines 0 0 [3]).flagCell 1 1).firstClick ∧
      (Board.deserialize ((((mkBoard 2 2 1).placeMines 0 0 [3]).flagCell 1 1).serialize)).cells
          ((0 : Nat) : Int) ((0 : Nat) : Int) =
        (((mkBoard 2 2 1).placeMines 0 0 [3]).flagCell 1 1).cells
          ((0 : Nat) : Int) ((0 : Nat) : Int)) :=
  ⟨by decide, by decide,
    c8_round_trip (((mkBoard 2 2 1).placeMines 0 0 [3]).flagCell 1 1) 0 0
      (by decide) (by decide)⟩

end MS
